import Mathlib

/-! LockStack (`src/hotspot/share/runtime/lockStack.hpp`, `lockStack.inline.hpp`)

A shallow embedding of the per-thread lock stack and of its inline operations.

* A machine word (`intptr_t`, and an `oop` cast to it) is the natural number of its bit
  pattern, below `2 ^ word_bits`.  `entry++` and `entry--` wrap modulo `2 ^ word_bits`.
* The build flag `_LP64` is the boolean parameter `lp64`.
* Pointers into the backing buffer are slot offsets from `_base`: `_base` is offset `0`,
  `_limit` is the length of the buffer and `_current` is the number of occupied slots.
  A pointer that a loop may move below `_base` is an `Int`.
* A load or store outside `[_base, _limit)` is the fault `out_of_bounds`; `ShouldNotReachHere()`
  is the fault `should_not_reach_here`.
* `assert` and `validate` are compiled out (product build): they are not part of the operations.
* Loops are bounded by a fuel argument that is one more than the number of iterations the loop
  can make; the loop leaves through the source's own condition, and running out of fuel is the
  separate fault `out_of_fuel`.
-/

/-- Ways in which an operation can fail to return. -/
inductive Fault where
  | out_of_bounds
  | should_not_reach_here
  | out_of_fuel
deriving DecidableEq, Repr

deriving instance DecidableEq for Except

/-- The lock stack: the words of the backing buffer (`mem[i]` is `*(_base + i)`) and the offset
`_current - _base`. -/
structure LockStack where
  mem : List Nat
  _current : Nat
deriving DecidableEq, Repr

namespace LockStack

/-- `OOP_MASK`: `7` under `_LP64`, `3` otherwise. -/
def OOP_MASK (lp64 : Bool) : Nat := if lp64 then 7 else 3

/-- Width in bits of `intptr_t`. -/
def word_bits (lp64 : Bool) : Nat := if lp64 then 64 else 32

/-- Tag width `T`, with `OOP_MASK = 2 ^ T - 1`. -/
def tag_bits (lp64 : Bool) : Nat := if lp64 then 3 else 2

/-- `decode_oop`: `entry & ~OOP_MASK`. -/
def decode_oop (lp64 : Bool) (entry : Nat) : Nat :=
  entry &&& (2 ^ word_bits lp64 - 1 - OOP_MASK lp64)

/-- `encode_oop`: the word of the reference (its assertion is compiled out). -/
def encode_oop (o : Nat) : Nat := o

/-- `decode_recursion`: `entry & OOP_MASK`. -/
def decode_recursion (lp64 : Bool) (entry : Nat) : Nat :=
  entry &&& OOP_MASK lp64

/-- `_base`, as a slot offset. -/
def _base : Nat := 0

/-- `_limit - _base`: the capacity of the backing buffer. -/
def _limit (s : LockStack) : Nat := s.mem.length

/-- The read `*loc`. -/
def load (s : LockStack) (loc : Int) : Except Fault Nat :=
  if loc < 0 then .error .out_of_bounds
  else match s.mem[loc.toNat]? with
    | some e => .ok e
    | none => .error .out_of_bounds

/-- The write `*loc = v`. -/
def store (s : LockStack) (loc : Int) (v : Nat) : Except Fault LockStack :=
  if loc < 0 then .error .out_of_bounds
  else if loc.toNat < s.mem.length then .ok { s with mem := s.mem.set loc.toNat v }
  else .error .out_of_bounds

/-- Modelled from the spec: `grow(min_capacity)`, whose body is in `lockStack.cpp`.  A new buffer
of at least `min_capacity` slots (here the larger of `min_capacity` and twice the old capacity)
receives the existing entries in order; the content of the fresh slots is unspecified and is
taken to be `0`. -/
def grow (s : LockStack) (min_capacity : Nat) : LockStack :=
  let live := s.mem.take s._current
  let new_capacity := max min_capacity (2 * s._limit)
  { mem := live ++ List.replicate (new_capacity - live.length) 0, _current := s._current }

/-- `LockStack::push`. -/
def push (s : LockStack) (o : Nat) : Except Fault LockStack := do
  let s1 := if s._current ≥ s._limit then grow s ((s._limit - _base) + 1) else s
  let s2 ← store s1 s1._current (encode_oop o)
  pure { s2 with _current := s2._current + 1 }

/-- `LockStack::pop`. -/
def pop (lp64 : Bool) (s : LockStack) : Except Fault (Nat × LockStack) := do
  let new_loc : Int := (s._current : Int) - 1
  let entry ← load s new_loc
  pure (decode_oop lp64 entry, { s with _current := new_loc.toNat })

/-- The inner loop of `remove`: `for (; loc < last; loc++) *loc = *(loc + 1);`. -/
def remove_shift (last : Nat) : Nat → Nat → LockStack → Except Fault LockStack
  | 0, _, _ => .error .out_of_fuel
  | fuel + 1, loc, s =>
    if loc < last then do
      let next ← load s ((loc : Int) + 1)
      let s1 ← store s loc next
      remove_shift last fuel (loc + 1) s1
    else .ok s

/-- The outer loop of `remove`: `for (loc = _base; loc < _current; loc++)`. -/
def remove_scan (lp64 : Bool) (o : Nat) : Nat → Nat → LockStack → Except Fault LockStack
  | 0, _, _ => .error .out_of_fuel
  | fuel + 1, loc, s =>
    if loc < s._current then do
      let entry ← load s loc
      if decode_oop lp64 entry = o then do
        let last := s._current - 1
        let s1 ← remove_shift last (last - loc + 1) loc s
        pure { s1 with _current := s1._current - 1 }
      else remove_scan lp64 o fuel (loc + 1) s
    else .ok s

/-- `LockStack::remove`. -/
def remove (lp64 : Bool) (s : LockStack) (o : Nat) : Except Fault LockStack :=
  remove_scan lp64 o (s._current + 1) _base s

/-- The loop of `contains`: `for (loc = _current - 1; loc >= _base; loc--)`.  Returns the answer
together with the slots read, in the order they were read. -/
def contains_scan (lp64 : Bool) (s : LockStack) (o : Nat) :
    Nat → Int → Except Fault (Bool × List Int)
  | 0, _ => .error .out_of_fuel
  | fuel + 1, loc =>
    if loc ≥ (_base : Int) then do
      let entry ← load s loc
      if decode_oop lp64 entry = o then pure (true, [loc])
      else do
        let r ← contains_scan lp64 s o fuel (loc - 1)
        pure (r.1, loc :: r.2)
    else .ok (false, [])

/-- `LockStack::contains`. -/
def contains (lp64 : Bool) (s : LockStack) (o : Nat) : Except Fault Bool := do
  let r ← contains_scan lp64 s o (s._current + 1) ((s._current : Int) - 1)
  pure r.1

/-- The slots read by `contains`, in order. -/
def contains_reads (lp64 : Bool) (s : LockStack) (o : Nat) : Except Fault (List Int) := do
  let r ← contains_scan lp64 s o (s._current + 1) ((s._current : Int) - 1)
  pure r.2

/-- The diagnostic loop of `try_enter_recursive`:
`for (loc = _current - 2; loc >= _base; loc--)`.  Returns the lines printed to `tty`. -/
def interleaved_scan (lp64 : Bool) (s : LockStack) (obj : Nat) :
    Nat → Int → Except Fault (List String)
  | 0, _ => .error .out_of_fuel
  | fuel + 1, loc =>
    if loc ≥ (_base : Int) then do
      let entry ← load s loc
      if decode_oop lp64 entry = obj then
        pure ["missed possible interleaved recursive locking"]
      else interleaved_scan lp64 s obj fuel (loc - 1)
    else .ok []

/-- `LockStack::try_enter_recursive`: the returned flag, the stack afterwards and the lines
printed to `tty`. -/
def try_enter_recursive (lp64 : Bool) (s : LockStack) (obj : Nat) :
    Except Fault (Bool × LockStack × List String) := do
  let loc : Int := (s._current : Int) - 1
  let entry ← load s loc
  if decode_oop lp64 entry = obj then
    let recursions := decode_recursion lp64 entry
    if recursions < OOP_MASK lp64 then do
      let entry1 := (entry + 1) % 2 ^ word_bits lp64
      let s1 ← store s loc entry1
      pure (true, s1, [])
    else do
      let out ← interleaved_scan lp64 s obj s._current ((s._current : Int) - 2)
      pure (false, s, out)
  else pure (false, s, [])

/-- `LockStack::try_exit_recursive`: the returned flag and the stack afterwards. -/
def try_exit_recursive (lp64 : Bool) (s : LockStack) (obj : Nat) :
    Except Fault (Bool × LockStack) := do
  let loc : Int := (s._current : Int) - 1
  let entry ← load s loc
  if decode_oop lp64 entry = obj then
    let recursions := decode_recursion lp64 entry
    if recursions > 0 then do
      let entry1 := (entry + 2 ^ word_bits lp64 - 1) % 2 ^ word_bits lp64
      let s1 ← store s loc entry1
      pure (true, s1)
    else pure (false, s)
  else pure (false, s)

/-- The loop of `get_recursions`: `for (loc = _current - 1; loc >= _base; loc--)`, followed by
`ShouldNotReachHere()`. -/
def get_recursions_scan (lp64 : Bool) (s : LockStack) (obj : Nat) :
    Nat → Int → Except Fault Nat
  | 0, _ => .error .out_of_fuel
  | fuel + 1, loc =>
    if loc ≥ (_base : Int) then do
      let entry ← load s loc
      if decode_oop lp64 entry = obj then
        pure (decode_recursion lp64 entry)
      else get_recursions_scan lp64 s obj fuel (loc - 1)
    else .error .should_not_reach_here

/-- `LockStack::get_recursions`. -/
def get_recursions (lp64 : Bool) (s : LockStack) (obj : Nat) : Except Fault Nat :=
  get_recursions_scan lp64 s obj (s._current + 1) ((s._current : Int) - 1)

/-- The loop of `oops_do`: `for (loc = _base; loc < _current; loc++)`; `cl` gives the reference
that `cl->do_oop(&p)` leaves in `p`.  Returns the stack afterwards together with the calls of
`do_oop`, in call order, each as the slot visited and the reference handed over. -/
def oops_do_scan (lp64 : Bool) (cl : Nat → Nat) :
    Nat → Nat → LockStack → Except Fault (LockStack × List (Nat × Nat))
  | 0, _, _ => .error .out_of_fuel
  | fuel + 1, loc, s =>
    if loc < s._current then do
      let entry ← load s loc
      let p := decode_oop lp64 entry
      let recursions := decode_recursion lp64 entry
      let s1 ← store s loc (encode_oop (cl p) ||| recursions)
      let r ← oops_do_scan lp64 cl fuel (loc + 1) s1
      pure (r.1, (loc, p) :: r.2)
    else .ok (s, [])

/-- `LockStack::oops_do`. -/
def oops_do (lp64 : Bool) (cl : Nat → Nat) (s : LockStack) : Except Fault LockStack := do
  let r ← oops_do_scan lp64 cl (s._current + 1) _base s
  pure r.1

/-- The calls of `do_oop` made by `oops_do`, in call order. -/
def oops_do_calls (lp64 : Bool) (cl : Nat → Nat) (s : LockStack) :
    Except Fault (List (Nat × Nat)) := do
  let r ← oops_do_scan lp64 cl (s._current + 1) _base s
  pure r.2

/-- The word that `oops_do` stores back into a slot that held `entry`:
`encode_oop(p) | recursions`, with `p` as `cl` left it. -/
def relocated (lp64 : Bool) (cl : Nat → Nat) (entry : Nat) : Nat :=
  encode_oop (cl (decode_oop lp64 entry)) ||| decode_recursion lp64 entry

/-- The condition of the assertion in `pop`: `new_loc < _current`, where
`new_loc = _current - 1`. -/
def pop_assert_holds (s : LockStack) : Bool :=
  let new_loc : Int := (s._current : Int) - 1
  decide (new_loc < (s._current : Int))

/-- The occupied slots `[_base, _current)`, bottom first. -/
def entries (s : LockStack) : List Nat := s.mem.take s._current

/-- The stack fits its buffer (`_current <= _limit`) and every buffer word is a machine word. -/
def wf (lp64 : Bool) (s : LockStack) : Prop :=
  s._current ≤ s._limit ∧ ∀ e ∈ s.mem, e < 2 ^ word_bits lp64

/-- The uniqueness invariant: no two occupied slots decode to the same reference. -/
def unique (lp64 : Bool) (s : LockStack) : Prop :=
  ((entries s).map (decode_oop lp64)).Nodup

/-- A reference whose tag bits are zero, as a machine word. -/
def aligned (lp64 : Bool) (o : Nat) : Prop :=
  o < 2 ^ word_bits lp64 ∧ decode_recursion lp64 o = 0

/-- The stack after construction: a buffer of `INITIAL_CAPACITY = 1` slot, nothing occupied. -/
def empty : LockStack := { mem := [0], _current := 0 }

instance decidable_wf (lp64 : Bool) (s : LockStack) : Decidable (wf lp64 s) := by
  unfold wf
  exact inferInstance

instance decidable_unique (lp64 : Bool) (s : LockStack) : Decidable (unique lp64 s) := by
  unfold unique
  exact inferInstance

instance decidable_aligned (lp64 : Bool) (o : Nat) : Decidable (aligned lp64 o) := by
  unfold aligned
  exact inferInstance

/-- One call of a push/pop sequence. -/
inductive Op where
  | push (o : Nat)
  | pop
deriving DecidableEq, Repr

/-- Runs a sequence of `push` and `pop` calls; returns the stack afterwards and the references
returned by the pops, in call order. -/
def run (lp64 : Bool) : LockStack → List Op → Except Fault (LockStack × List Nat)
  | s, [] => .ok (s, [])
  | s, Op.push o :: ops => do
    let s1 ← push s o
    run lp64 s1 ops
  | s, Op.pop :: ops => do
    let r ← pop lp64 s
    let rs ← run lp64 r.2 ops
    pure (rs.1, r.1 :: rs.2)

/-- In the spec's words: the references pushed and not yet popped, most recently pushed first,
after a sequence of calls that starts with the references `st` pending; a pop takes away the most
recently pushed one. -/
def pending : List Nat → List Op → List Nat
  | st, [] => st
  | st, Op.push o :: ops => pending (o :: st) ops
  | st, Op.pop :: ops => pending st.tail ops

/-- In the spec's words: what each pop of a sequence has to return, namely the most recently
pushed reference that has not yet been popped. -/
def expected_pops : List Nat → List Op → List (Option Nat)
  | _, [] => []
  | st, Op.push o :: ops => expected_pops (o :: st) ops
  | st, Op.pop :: ops => st.head? :: expected_pops st.tail ops

/-- The preconditions of a sequence of calls: a push is of an aligned reference that is not
pending, a pop happens only when some reference is pending. -/
def respects (lp64 : Bool) : List Nat → List Op → Prop
  | _, [] => True
  | st, Op.push o :: ops => aligned lp64 o ∧ o ∉ st ∧ respects lp64 (o :: st) ops
  | st, Op.pop :: ops => st ≠ [] ∧ respects lp64 st.tail ops

/-- The stack `s` holds exactly the pending references `st` (most recent first), each as a
zero-count entry. -/
def holds (lp64 : Bool) (s : LockStack) (st : List Nat) : Prop :=
  wf lp64 s ∧ entries s = st.reverse ∧ ∀ o ∈ st, aligned lp64 o

instance decidable_respects (lp64 : Bool) :
    (st : List Nat) → (ops : List Op) → Decidable (respects lp64 st ops)
  | _, [] => isTrue trivial
  | st, Op.push o :: ops =>
    have := decidable_respects lp64 (o :: st) ops
    inferInstanceAs (Decidable (aligned lp64 o ∧ o ∉ st ∧ respects lp64 (o :: st) ops))
  | st, Op.pop :: ops =>
    have := decidable_respects lp64 st.tail ops
    inferInstanceAs (Decidable (st ≠ [] ∧ respects lp64 st.tail ops))

/-- The predicate "only the top entry carries a nonzero recursion count": every occupied slot
below the top has tag bits zero. -/
def top_only (lp64 : Bool) (s : LockStack) : Prop :=
  ∀ e ∈ (entries s).dropLast, decode_recursion lp64 e = 0

instance decidable_top_only (lp64 : Bool) (s : LockStack) : Decidable (top_only lp64 s) := by
  unfold top_only
  exact inferInstance

/-- The stack is empty or its top entry has recursion count zero. -/
def plain_top (lp64 : Bool) (s : LockStack) : Prop :=
  ∀ e ∈ (entries s).getLast?, decode_recursion lp64 e = 0

instance decidable_plain_top (lp64 : Bool) (s : LockStack) : Decidable (plain_top lp64 s) := by
  unfold plain_top
  exact inferInstance

/-- One call of an operation that may write the stack. -/
inductive Call where
  | push (o : Nat)
  | pop
  | remove (o : Nat)
  | try_enter_recursive (obj : Nat)
  | try_exit_recursive (obj : Nat)
  | oops_do (cl : Nat → Nat)

/-- The stack after a call. -/
def Call.apply (lp64 : Bool) : Call → LockStack → Except Fault LockStack
  | Call.push o, s => LockStack.push s o
  | Call.pop, s => do
    let r ← LockStack.pop lp64 s
    pure r.2
  | Call.remove o, s => LockStack.remove lp64 s o
  | Call.try_enter_recursive obj, s => do
    let r ← LockStack.try_enter_recursive lp64 s obj
    pure r.2.1
  | Call.try_exit_recursive obj, s => do
    let r ← LockStack.try_exit_recursive lp64 s obj
    pure r.2
  | Call.oops_do cl, s => LockStack.oops_do lp64 cl s

/-- The preconditions of a call: `push` of an aligned reference that is not present, `pop` and
the recursive enter and exit on a non-empty stack, `remove` of a present reference, `oops_do`
with a callback that leaves an aligned reference for every reference of the stack. -/
def Call.pre (lp64 : Bool) : Call → LockStack → Prop
  | Call.push o, s => aligned lp64 o ∧ ∀ e ∈ entries s, decode_oop lp64 e ≠ o
  | Call.pop, s => 0 < s._current
  | Call.remove o, s => ∃ e ∈ entries s, decode_oop lp64 e = o
  | Call.try_enter_recursive _, s => 0 < s._current
  | Call.try_exit_recursive _, s => 0 < s._current
  | Call.oops_do cl, s => ∀ e ∈ entries s, aligned lp64 (cl (decode_oop lp64 e))

/-- The preconditions of a call, with the further condition on `push` that the stack is empty
or its top entry has recursion count zero. -/
def Call.pre_plain (lp64 : Bool) (c : Call) (s : LockStack) : Prop :=
  Call.pre lp64 c s ∧ ∀ o, c = Call.push o → plain_top lp64 s

/-- The states reachable from the empty stack by calls that satisfy `P` in the state they are
made in. -/
inductive Reach (lp64 : Bool) (P : Call → LockStack → Prop) : LockStack → Prop where
  | init : Reach lp64 P empty
  | step (s s1 : LockStack) (c : Call) :
    Reach lp64 P s → P c s → Call.apply lp64 c s = .ok s1 → Reach lp64 P s1

end LockStack

namespace LockStack

/-! ## Words: reference bits and tag bits -/

theorem land_not_mask (e w t : Nat) (ht : t ≤ w) (he : e < 2 ^ w) :
    e &&& (2 ^ w - 1 - (2 ^ t - 1)) = e - e % 2 ^ t := by
  have hpos : 0 < 2 ^ t := Nat.two_pow_pos t
  have hle : 2 ^ t ≤ 2 ^ w := Nat.pow_le_pow_right (by decide) ht
  have h1 : 2 ^ w - 1 - (2 ^ t - 1) = 2 ^ w - ((2 ^ t - 1) + 1) := by omega
  have h2 : e - e % 2 ^ t = 2 ^ t * (e / 2 ^ t) := by
    have := Nat.div_add_mod e (2 ^ t)
    omega
  have h3 : 2 ^ t - 1 < 2 ^ w := by omega
  apply Nat.eq_of_testBit_eq
  intro i
  rw [Nat.testBit_and, h1, Nat.testBit_two_pow_sub_succ h3, Nat.testBit_two_pow_sub_one, h2,
    Nat.testBit_mul_pow_two, ← Nat.shiftRight_eq_div_pow, Nat.testBit_shiftRight]
  by_cases hit : i < t
  · simp [hit]
  · have hti : t ≤ i := Nat.le_of_not_lt hit
    have hsum : t + (i - t) = i := by omega
    simp only [hsum]
    by_cases hiw : i < w
    · simp [hit, hiw, hti]
    · have hwi : w ≤ i := Nat.le_of_not_lt hiw
      have hbit : e.testBit i = false :=
        Nat.testBit_lt_two_pow (lt_of_lt_of_le he (Nat.pow_le_pow_right (by decide) hwi))
      simp [hbit]

theorem OOP_MASK_eq (lp64 : Bool) : OOP_MASK lp64 = 2 ^ tag_bits lp64 - 1 := by
  cases lp64 <;> rfl

theorem tag_bits_le (lp64 : Bool) : tag_bits lp64 ≤ word_bits lp64 := by
  cases lp64 <;> decide

theorem decode_recursion_eq_mod (lp64 : Bool) (e : Nat) :
    decode_recursion lp64 e = e % 2 ^ tag_bits lp64 := by
  unfold decode_recursion
  rw [OOP_MASK_eq, Nat.and_pow_two_sub_one_eq_mod]

theorem decode_oop_eq_sub (lp64 : Bool) (e : Nat) (he : e < 2 ^ word_bits lp64) :
    decode_oop lp64 e = e - e % 2 ^ tag_bits lp64 := by
  unfold decode_oop
  rw [OOP_MASK_eq, land_not_mask e _ _ (tag_bits_le lp64) he]

theorem decode_recursion_le (lp64 : Bool) (e : Nat) :
    decode_recursion lp64 e ≤ OOP_MASK lp64 := by
  rw [decode_recursion_eq_mod, OOP_MASK_eq]
  have := Nat.mod_lt e (Nat.two_pow_pos (tag_bits lp64))
  omega

theorem decode_oop_lt (lp64 : Bool) (e : Nat) (he : e < 2 ^ word_bits lp64) :
    decode_oop lp64 e < 2 ^ word_bits lp64 := by
  rw [decode_oop_eq_sub lp64 e he]
  omega

theorem decode_oop_of_aligned (lp64 : Bool) (o : Nat) (h : aligned lp64 o) :
    decode_oop lp64 o = o := by
  obtain ⟨hlt, hrec⟩ := h
  rw [decode_oop_eq_sub lp64 o hlt, ← decode_recursion_eq_mod, hrec]
  rfl

/-- The word after `entry++` when the count is below `OOP_MASK`: no wrap, same reference, count
one higher. -/
theorem incr_spec (lp64 : Bool) (e : Nat) (he : e < 2 ^ word_bits lp64)
    (hrec : decode_recursion lp64 e < OOP_MASK lp64) :
    (e + 1) % 2 ^ word_bits lp64 = e + 1 ∧ e + 1 < 2 ^ word_bits lp64 ∧
      decode_oop lp64 (e + 1) = decode_oop lp64 e ∧
      decode_recursion lp64 (e + 1) = decode_recursion lp64 e + 1 := by
  have hlt : e + 1 < 2 ^ word_bits lp64 := by
    rw [decode_recursion_eq_mod] at hrec
    cases lp64 <;> simp [word_bits, tag_bits, OOP_MASK] at * <;> omega
  refine ⟨Nat.mod_eq_of_lt hlt, hlt, ?_, ?_⟩
  · rw [decode_oop_eq_sub lp64 _ hlt, decode_oop_eq_sub lp64 _ he]
    rw [decode_recursion_eq_mod] at hrec
    cases lp64 <;> simp [word_bits, tag_bits, OOP_MASK] at * <;> omega
  · simp only [decode_recursion_eq_mod] at *
    cases lp64 <;> simp [word_bits, tag_bits, OOP_MASK] at * <;> omega

/-- The word after `entry--` when the count is above zero: no wrap, same reference, count one
lower. -/
theorem decr_spec (lp64 : Bool) (e : Nat) (he : e < 2 ^ word_bits lp64)
    (hrec : 0 < decode_recursion lp64 e) :
    (e + 2 ^ word_bits lp64 - 1) % 2 ^ word_bits lp64 = e - 1 ∧ 0 < e ∧
      decode_oop lp64 (e - 1) = decode_oop lp64 e ∧
      decode_recursion lp64 (e - 1) + 1 = decode_recursion lp64 e := by
  have hpos : 0 < e := by
    rcases Nat.eq_zero_or_pos e with h | h
    · subst h
      simp [decode_recursion] at hrec
    · exact h
  have hlt : e - 1 < 2 ^ word_bits lp64 := by omega
  refine ⟨?_, hpos, ?_, ?_⟩
  · have h1 : e + 2 ^ word_bits lp64 - 1 = (e - 1) + 2 ^ word_bits lp64 := by omega
    rw [h1, Nat.add_mod_right, Nat.mod_eq_of_lt hlt]
  · rw [decode_oop_eq_sub lp64 _ hlt, decode_oop_eq_sub lp64 _ he]
    rw [decode_recursion_eq_mod] at hrec
    cases lp64 <;> simp [word_bits, tag_bits, OOP_MASK] at * <;> omega
  · simp only [decode_recursion_eq_mod] at *
    cases lp64 <;> simp [word_bits, tag_bits, OOP_MASK] at * <;> omega

end LockStack

namespace LockStack

/-! ## Loads, stores and the occupied slots -/

theorem getElem?_append_cons (below rest : List Nat) (e : Nat) :
    (below ++ e :: rest)[below.length]? = some e := by
  rw [List.getElem?_append_right (le_refl _)]
  simp

theorem load_append (below rest : List Nat) (e c : Nat) :
    load ⟨below ++ e :: rest, c⟩ (below.length : Int) = .ok e := by
  have h0 : ¬ ((below.length : Int) < 0) := by omega
  simp only [load, h0, ↓reduceIte, Int.toNat_ofNat, getElem?_append_cons]

theorem store_append (below rest : List Nat) (e c v : Nat) :
    store ⟨below ++ e :: rest, c⟩ (below.length : Int) v = .ok ⟨below ++ v :: rest, c⟩ := by
  have h0 : ¬ ((below.length : Int) < 0) := by omega
  simp [store, h0]

theorem entries_append_cons (below rest : List Nat) (e : Nat) :
    entries ⟨below ++ e :: rest, below.length + 1⟩ = below ++ [e] := by
  simp [entries, List.take_append_eq_append_take]

theorem entries_append (below rest : List Nat) :
    entries ⟨below ++ rest, below.length⟩ = below := by
  simp [entries]

theorem entries_length (s : LockStack) (h : s._current ≤ s._limit) :
    (entries s).length = s._current := by
  simp only [entries, List.length_take, _limit] at *
  omega

/-- A stack that fits its buffer and whose occupied slots are `below ++ [e]` is the buffer
`below ++ e :: rest` with `_current` just above `e`. -/
theorem eq_of_entries_snoc (s : LockStack) (below : List Nat) (e : Nat)
    (h : s._current ≤ s._limit) (hs : entries s = below ++ [e]) :
    ∃ rest, s = ⟨below ++ e :: rest, below.length + 1⟩ := by
  have hlen := entries_length s h
  rw [hs] at hlen
  simp at hlen
  refine ⟨s.mem.drop s._current, ?_⟩
  obtain ⟨mem, cur⟩ := s
  simp only [entries] at hs
  simp only at hlen
  subst hlen
  have hm : mem = List.take (below.length + 1) mem ++ List.drop (below.length + 1) mem :=
    (List.take_append_drop _ _).symm
  rw [hs] at hm
  simp only [List.append_assoc, List.singleton_append] at hm
  simp only [mk.injEq, and_true]
  exact hm

/-- A stack that fits its buffer is the buffer `entries ++ rest` with `_current` at the end of
the entries. -/
theorem eq_of_entries (s : LockStack) (h : s._current ≤ s._limit) :
    ∃ rest, s = ⟨entries s ++ rest, (entries s).length⟩ := by
  refine ⟨s.mem.drop s._current, ?_⟩
  rw [entries_length s h]
  obtain ⟨mem, cur⟩ := s
  simp [entries]

theorem wf_append_cons (lp64 : Bool) (below rest : List Nat) (e v c c1 : Nat)
    (h : wf lp64 ⟨below ++ e :: rest, c⟩) (hv : v < 2 ^ word_bits lp64)
    (hc : c1 ≤ below.length + 1 + rest.length) :
    wf lp64 ⟨below ++ v :: rest, c1⟩ := by
  obtain ⟨_, hw⟩ := h
  refine ⟨?_, ?_⟩
  · simp only [_limit, List.length_append, List.length_cons]
    omega
  · intro x hx
    simp only [List.mem_append, List.mem_cons] at hx hw
    rcases hx with hx | hx | hx
    · exact hw x (Or.inl hx)
    · exact hx ▸ hv
    · exact hw x (Or.inr (Or.inr hx))

/-! ## push and pop -/

/-- What `push` does on a stack that fits its buffer: it returns, the new entry is the word of
the reference and sits on top of the old entries. -/
theorem push_spec (lp64 : Bool) (s : LockStack) (o : Nat) (h : wf lp64 s)
    (ho : o < 2 ^ word_bits lp64) :
    ∃ s1, push s o = .ok s1 ∧ entries s1 = entries s ++ [o] ∧
      s1._current = s._current + 1 ∧ wf lp64 s1 := by
  obtain ⟨hfit, hw⟩ := h
  obtain ⟨rest, hs⟩ := eq_of_entries s hfit
  have hcur := entries_length s hfit
  generalize entries s = es at hs hcur ⊢
  subst hs
  simp only at hcur
  cases rest with
  | nil =>
    refine ⟨⟨es ++ o :: List.replicate (max (es.length + 1) (2 * es.length) - es.length - 1) 0,
      es.length + 1⟩, ?_, entries_append_cons _ _ _, rfl, ?_⟩
    · have hrep : max (es.length + 1) (2 * es.length) - es.length =
          (max (es.length + 1) (2 * es.length) - es.length - 1) + 1 := by omega
      simp only [push, _limit, _base, grow, List.append_nil, List.take_length, ge_iff_le,
        le_refl, ↓reduceIte, Nat.sub_zero, encode_oop]
      rw [hrep, List.replicate_succ, store_append]
      rfl
    · refine ⟨?_, ?_⟩
      · simp [_limit]
      · intro x hx
        simp only [List.mem_append, List.mem_cons, List.mem_replicate] at hx
        rcases hx with hx | hx | hx
        · exact hw x (by simpa using hx)
        · exact hx ▸ ho
        · rw [hx.2]
          exact Nat.two_pow_pos _
  | cons r rest =>
    refine ⟨⟨es ++ o :: rest, es.length + 1⟩, ?_, entries_append_cons _ _ _, rfl, ?_⟩
    · have hlt : ¬ (es ++ r :: rest).length ≤ es.length := by simp
      simp only [push, _limit, ge_iff_le, hlt, ↓reduceIte, encode_oop]
      rw [store_append]
      rfl
    · exact wf_append_cons lp64 es rest r o _ _ ⟨hfit, hw⟩ ho (by omega)

/-- What `pop` does on a stack that fits its buffer and whose occupied slots are
`below ++ [e]`. -/
theorem pop_spec (lp64 : Bool) (s : LockStack) (below : List Nat) (e : Nat)
    (h : s._current ≤ s._limit) (hs : entries s = below ++ [e]) :
    ∃ s1, pop lp64 s = .ok (decode_oop lp64 e, s1) ∧ entries s1 = below ∧
      s1._current = below.length ∧ s1.mem = s.mem := by
  obtain ⟨rest, rfl⟩ := eq_of_entries_snoc s below e h hs
  refine ⟨⟨below ++ e :: rest, below.length⟩, ?_, entries_append _ _, rfl, rfl⟩
  have hloc : ((below.length + 1 : Nat) : Int) - 1 = (below.length : Int) := by omega
  simp only [pop, hloc, load_append]
  rfl

end LockStack

namespace LockStack

/-- C1: on a stack that fits its buffer, `push(a)` of an aligned reference followed by `pop()`
returns `a`, and the stack afterwards has the size and the occupied entries, in order, that it
had before.  (Neither uniqueness nor the absence of `a` is needed for this.) -/
theorem push_pop_roundtrip (lp64 : Bool) (s : LockStack) (a : Nat) (hwf : wf lp64 s)
    (ha : aligned lp64 a) :
    ∃ s1 s2, push s a = .ok s1 ∧ pop lp64 s1 = .ok (a, s2) ∧
      s2._current = s._current ∧ entries s2 = entries s := by
  obtain ⟨s1, hpush, hent, _, hwf1⟩ := push_spec lp64 s a hwf ha.1
  obtain ⟨s2, hpop, hent2, hcur2, _⟩ := pop_spec lp64 s1 (entries s) a hwf1.1 hent
  refine ⟨s1, s2, hpush, ?_, ?_, hent2⟩
  · rw [hpop, decode_oop_of_aligned lp64 a ha]
  · rw [hcur2, entries_length s hwf.1]

theorem push_pop_roundtrip_witness :
    wf true ⟨[8, 17], 1⟩ ∧ aligned true 24 ∧
      ∃ s1 s2, push ⟨[8, 17], 1⟩ 24 = .ok s1 ∧ pop true s1 = .ok (24, s2) ∧
        s2._current = 1 ∧ entries s2 = [8] :=
  ⟨by decide, by decide, push_pop_roundtrip true ⟨[8, 17], 1⟩ 24 (by decide) (by decide)⟩

end LockStack

namespace LockStack

/-! ## contains -/

theorem load_of_lt (s : LockStack) (n : Nat) (h : n < s.mem.length) :
    load s (n : Int) = .ok s.mem[n] := by
  have h0 : ¬ ((n : Int) < 0) := by omega
  simp only [load, h0, ↓reduceIte, Int.toNat_ofNat, List.getElem?_eq_getElem h]

theorem take_succ_of_lt (l : List Nat) (n : Nat) (h : n < l.length) :
    l.take (n + 1) = l.take n ++ [l[n]] := by
  rw [List.take_succ, List.getElem?_eq_getElem h]
  rfl

theorem contains_scan_succ (lp64 : Bool) (s : LockStack) (o fuel : Nat) (loc : Int) :
    contains_scan lp64 s o (fuel + 1) loc =
      if loc ≥ (_base : Int) then
        (load s loc).bind (fun entry =>
          if decode_oop lp64 entry = o then .ok (true, [loc])
          else (contains_scan lp64 s o fuel (loc - 1)).bind (fun r => .ok (r.1, loc :: r.2)))
      else .ok (false, []) := rfl

/-- The loop of `contains` started at slot `n - 1`: it returns, its answer is whether one of the
lowest `n` slots decodes to `o`, and it reads only slots in `[0, n)`. -/
theorem contains_scan_spec (lp64 : Bool) (s : LockStack) (o : Nat) :
    ∀ n : Nat, n ≤ s.mem.length →
      ∃ reads, contains_scan lp64 s o (n + 1) ((n : Int) - 1) =
          .ok ((s.mem.take n).any (fun e => decide (decode_oop lp64 e = o)), reads) ∧
        ∀ loc ∈ reads, 0 ≤ loc ∧ loc < (n : Int) := by
  intro n
  induction n with
  | zero =>
    intro _
    refine ⟨[], ?_, by simp⟩
    simp [contains_scan_succ, _base]
  | succ n ih =>
    intro hn
    have hlt : n < s.mem.length := by omega
    obtain ⟨reads, hrec, hreads⟩ := ih (by omega)
    have hloc : ((n + 1 : Nat) : Int) - 1 = (n : Int) := by omega
    have hge : (n : Int) ≥ ((_base : Nat) : Int) := by simp [_base]
    rw [hloc, take_succ_of_lt s.mem n hlt, List.any_append, contains_scan_succ, if_pos hge,
      load_of_lt s n hlt]
    by_cases hd : decode_oop lp64 s.mem[n] = o
    · refine ⟨[(n : Int)], ?_, ?_⟩
      · simp [Except.bind, hd]
      · intro loc hloc
        simp only [List.mem_singleton] at hloc
        omega
    · refine ⟨(n : Int) :: reads, ?_, ?_⟩
      · simp [Except.bind, hd, hrec]
      · intro loc hloc
        simp only [List.mem_cons] at hloc
        rcases hloc with h | h
        · omega
        · have := hreads loc h
          omega

/-- What `contains` does on a stack that fits its buffer. -/
theorem contains_spec (lp64 : Bool) (s : LockStack) (o : Nat) (h : s._current ≤ s._limit) :
    contains lp64 s o = .ok ((entries s).any (fun e => decide (decode_oop lp64 e = o))) := by
  obtain ⟨reads, hscan, _⟩ := contains_scan_spec lp64 s o s._current h
  simp only [contains, hscan, bind, Except.bind, pure, Except.pure, entries]

theorem any_decode_iff (lp64 : Bool) (l : List Nat) (o : Nat) :
    l.any (fun e => decide (decode_oop lp64 e = o)) = true ↔ ∃ e ∈ l, decode_oop lp64 e = o := by
  simp [List.any_eq_true]

/-- C10: on every stack that fits its buffer, the empty one included, `contains(ref)` returns,
and returns true exactly when some occupied slot decodes to `ref` (whatever its recursion bits);
every slot it reads lies in `[_base, _current)`.  Its result is a flag only: the stack is not
written. -/
theorem contains_iff_occupied (lp64 : Bool) (s : LockStack) (ref : Nat)
    (h : s._current ≤ s._limit) :
    ∃ b reads, contains lp64 s ref = .ok b ∧ contains_reads lp64 s ref = .ok reads ∧
      (b = true ↔ ∃ e ∈ entries s, decode_oop lp64 e = ref) ∧
      ∀ loc ∈ reads, (_base : Int) ≤ loc ∧ loc < (s._current : Int) := by
  obtain ⟨reads, hscan, hreads⟩ := contains_scan_spec lp64 s ref s._current h
  refine ⟨_, reads, contains_spec lp64 s ref h, ?_, any_decode_iff lp64 _ ref, ?_⟩
  · simp only [contains_reads, hscan, bind, Except.bind, pure, Except.pure]
  · intro loc hloc
    simpa [_base] using hreads loc hloc

theorem contains_iff_occupied_witness :
    (⟨[8, 19, 32], 2⟩ : LockStack)._current ≤ _limit ⟨[8, 19, 32], 2⟩ ∧
      contains true ⟨[8, 19, 32], 2⟩ 16 = .ok true ∧
      contains true ⟨[8, 19, 32], 2⟩ 32 = .ok false ∧
      contains true empty 16 = .ok false ∧ contains_reads true empty 16 = .ok [] ∧
      ∃ b reads, contains true ⟨[8, 19, 32], 2⟩ 16 = .ok b ∧
        contains_reads true ⟨[8, 19, 32], 2⟩ 16 = .ok reads ∧
        (b = true ↔ ∃ e ∈ entries ⟨[8, 19, 32], 2⟩, decode_oop true e = 16) ∧
        ∀ loc ∈ reads, (_base : Int) ≤ loc ∧ loc < ((⟨[8, 19, 32], 2⟩ : LockStack)._current : Int) :=
  ⟨by decide, by decide, by decide, by decide, by decide,
    contains_iff_occupied true ⟨[8, 19, 32], 2⟩ 16 (by decide)⟩

end LockStack

namespace LockStack

/-! ## Sequences of push and pop -/

theorem run_push (lp64 : Bool) (s : LockStack) (o : Nat) (ops : List Op) :
    run lp64 s (Op.push o :: ops) = (push s o).bind (fun s1 => run lp64 s1 ops) := rfl

theorem run_pop (lp64 : Bool) (s : LockStack) (ops : List Op) :
    run lp64 s (Op.pop :: ops) =
      (pop lp64 s).bind (fun r => (run lp64 r.2 ops).bind (fun rs => .ok (rs.1, r.1 :: rs.2))) :=
  rfl

theorem run_spec (lp64 : Bool) (ops : List Op) :
    ∀ (s : LockStack) (st : List Nat), holds lp64 s st → respects lp64 st ops →
      ∃ s1 outs, run lp64 s ops = .ok (s1, outs) ∧ holds lp64 s1 (pending st ops) ∧
        outs.map some = expected_pops st ops := by
  induction ops with
  | nil =>
    intro s st hs _
    exact ⟨s, [], rfl, hs, rfl⟩
  | cons op ops ih =>
    intro s st hs hr
    obtain ⟨hwf, hent, hal⟩ := hs
    cases op with
    | push o =>
      obtain ⟨ho, _, hr1⟩ := hr
      obtain ⟨s1, hpush, hent1, _, hwf1⟩ := push_spec lp64 s o hwf ho.1
      have hs1 : holds lp64 s1 (o :: st) := by
        refine ⟨hwf1, ?_, ?_⟩
        · rw [hent1, hent, List.reverse_cons]
        · intro x hx
          rcases List.mem_cons.mp hx with h | h
          · exact h ▸ ho
          · exact hal x h
      obtain ⟨s2, outs, hrun, hs2, houts⟩ := ih s1 (o :: st) hs1 hr1
      exact ⟨s2, outs, by rw [run_push, hpush]; exact hrun, hs2, houts⟩
    | pop =>
      obtain ⟨hne, hr1⟩ := hr
      cases st with
      | nil => exact absurd rfl hne
      | cons o st =>
        rw [List.reverse_cons] at hent
        obtain ⟨s1, hpop, hent1, hcur1, hmem1⟩ := pop_spec lp64 s st.reverse o hwf.1 hent
        have hlen := entries_length s hwf.1
        rw [hent] at hlen
        simp only [List.length_append, List.length_singleton] at hlen
        have hs1 : holds lp64 s1 st := by
          refine ⟨⟨?_, ?_⟩, hent1, fun x hx => hal x (List.mem_cons_of_mem _ hx)⟩
          · have := hwf.1
            simp only [_limit, hmem1, hcur1] at *
            omega
          · rw [hmem1]
            exact hwf.2
        obtain ⟨s2, outs, hrun, hs2, houts⟩ := ih s1 st hs1 hr1
        refine ⟨s2, decode_oop lp64 o :: outs, ?_, hs2, ?_⟩
        · rw [run_pop, hpop]
          simp only [Except.bind, hrun]
        · rw [decode_oop_of_aligned lp64 o (hal o (List.mem_cons_self _ _))]
          simp only [List.map_cons, expected_pops, List.head?_cons, List.tail_cons, houts]

theorem respects_of_append (lp64 : Bool) (pre rest : List Op) :
    ∀ st : List Nat, respects lp64 st (pre ++ rest) → respects lp64 st pre := by
  induction pre with
  | nil => intro _ _; trivial
  | cons op pre ih =>
    intro st h
    cases op with
    | push o => exact ⟨h.1, h.2.1, ih _ h.2.2⟩
    | pop => exact ⟨h.1, ih _ h.2⟩

theorem contains_of_holds (lp64 : Bool) (s : LockStack) (st : List Nat)
    (h : holds lp64 s st) (r : Nat) : contains lp64 s r = .ok (decide (r ∈ st)) := by
  obtain ⟨hwf, hent, hal⟩ := h
  rw [contains_spec lp64 s r hwf.1, hent]
  congr 1
  rw [Bool.eq_iff_iff, any_decode_iff]
  simp only [List.mem_reverse, decide_eq_true_eq]
  constructor
  · rintro ⟨e, he, hd⟩
    rw [decode_oop_of_aligned lp64 e (hal e he)] at hd
    exact hd ▸ he
  · intro hr
    exact ⟨r, hr, decode_oop_of_aligned lp64 r (hal r hr)⟩

theorem holds_empty (lp64 : Bool) : holds lp64 empty [] := by
  refine ⟨⟨by decide, ?_⟩, rfl, by simp⟩
  intro e he
  have : e = 0 := by simpa [empty] using he
  rw [this]
  exact Nat.two_pow_pos _

/-- C2: from the empty stack, after every prefix of a sequence of `push` and `pop` calls that
respects the preconditions, the run has returned, `contains(r)` is true exactly for the
references pushed and not yet popped, and every pop has returned the most recently pushed
reference not yet popped. -/
theorem push_pop_sequences (lp64 : Bool) (ops pre : List Op) (h : respects lp64 [] ops)
    (hpre : pre <+: ops) :
    ∃ s outs, run lp64 empty pre = .ok (s, outs) ∧
      (∀ r, contains lp64 s r = .ok (decide (r ∈ pending [] pre))) ∧
      outs.map some = expected_pops [] pre := by
  obtain ⟨rest, rfl⟩ := hpre
  obtain ⟨s, outs, hrun, hs, houts⟩ :=
    run_spec lp64 pre empty [] (holds_empty lp64) (respects_of_append lp64 pre rest [] h)
  exact ⟨s, outs, hrun, contains_of_holds lp64 s _ hs, houts⟩

theorem push_pop_sequences_witness :
    respects true [] [Op.push 8, Op.push 16, Op.pop, Op.push 24, Op.pop, Op.pop] ∧
      [Op.push 8, Op.push 16, Op.pop, Op.push 24] <+:
        [Op.push 8, Op.push 16, Op.pop, Op.push 24, Op.pop, Op.pop] ∧
      ∃ s outs, run true empty [Op.push 8, Op.push 16, Op.pop, Op.push 24] = .ok (s, outs) ∧
        (∀ r, contains true s r =
          .ok (decide (r ∈ pending [] [Op.push 8, Op.push 16, Op.pop, Op.push 24]))) ∧
        outs.map some = expected_pops [] [Op.push 8, Op.push 16, Op.pop, Op.push 24] :=
  ⟨by decide, ⟨[Op.pop, Op.pop], rfl⟩,
    push_pop_sequences true [Op.push 8, Op.push 16, Op.pop, Op.push 24, Op.pop, Op.pop]
      [Op.push 8, Op.push 16, Op.pop, Op.push 24] (by decide) ⟨[Op.pop, Op.pop], rfl⟩⟩

end LockStack

namespace LockStack

/-! ## remove -/

theorem remove_shift_succ (last fuel loc : Nat) (s : LockStack) :
    remove_shift last (fuel + 1) loc s =
      if loc < last then
        (load s ((loc : Int) + 1)).bind (fun next =>
          (store s loc next).bind (fun s1 => remove_shift last fuel (loc + 1) s1))
      else .ok s := rfl

theorem remove_scan_succ (lp64 : Bool) (o fuel loc : Nat) (s : LockStack) :
    remove_scan lp64 o (fuel + 1) loc s =
      if loc < s._current then
        (load s loc).bind (fun entry =>
          if decode_oop lp64 entry = o then
            (remove_shift (s._current - 1) (s._current - 1 - loc + 1) loc s).bind (fun s1 =>
              .ok { s1 with _current := s1._current - 1 })
          else remove_scan lp64 o fuel (loc + 1) s)
      else .ok s := rfl

/-- The inner loop of `remove`, started at the slot of `x` with the entries `mid` above it up to
`last`: it returns, `mid` has moved down by one slot, and slot `last` keeps a stale word. -/
theorem remove_shift_spec (rest : List Nat) (c : Nat) :
    ∀ (mid before : List Nat) (x : Nat),
      ∃ stale, stale ∈ x :: mid ∧
        remove_shift (before.length + mid.length) (mid.length + 1) before.length
            ⟨before ++ x :: (mid ++ rest), c⟩ =
          .ok ⟨before ++ (mid ++ stale :: rest), c⟩ := by
  intro mid
  induction mid with
  | nil =>
    intro before x
    refine ⟨x, List.mem_cons_self _ _, ?_⟩
    simp [remove_shift_succ]
  | cons m mid ih =>
    intro before x
    obtain ⟨stale, hmem, hrec⟩ := ih (before ++ [m]) m
    refine ⟨stale, List.mem_cons_of_mem _ hmem, ?_⟩
    have hlt : before.length < before.length + (m :: mid).length := by simp
    have hload : load ⟨before ++ x :: (m :: mid ++ rest), c⟩ ((before.length : Int) + 1) =
        .ok m := by
      have h := load_append (before ++ [x]) (mid ++ rest) m c
      simpa using h
    have hstore := store_append before (m :: mid ++ rest) x c m
    rw [remove_shift_succ, if_pos hlt, hload]
    simp only [Except.bind, hstore]
    have hlen : (before ++ [m]).length = before.length + 1 := by simp
    have hlast : before.length + (m :: mid).length = before.length + 1 + mid.length := by
      simp only [List.length_cons]
      omega
    rw [hlen] at hrec
    rw [hlast]
    simpa using hrec

/-- The outer loop of `remove`, when the slots `before ++ skip` do not decode to `o` and the next
slot `e` does: it returns, `e` is gone and the entries `above` have moved down. -/
theorem remove_scan_spec (lp64 : Bool) (o e : Nat) (above rest : List Nat)
    (he : decode_oop lp64 e = o) :
    ∀ (skip before : List Nat), (∀ y ∈ skip, decode_oop lp64 y ≠ o) →
      ∃ stale, stale ∈ e :: above ∧
        remove_scan lp64 o (skip.length + above.length + 2) before.length
            ⟨before ++ skip ++ e :: (above ++ rest),
              (before ++ skip).length + 1 + above.length⟩ =
          .ok ⟨before ++ skip ++ (above ++ stale :: rest), (before ++ skip).length + above.length⟩ := by
  intro skip
  induction skip with
  | nil =>
    intro before _
    obtain ⟨stale, hmem, hshift⟩ :=
      remove_shift_spec rest (before.length + 1 + above.length) above before e
    refine ⟨stale, hmem, ?_⟩
    have hlt : before.length < before.length + 1 + above.length := by omega
    have h1 : before.length + 1 + above.length - 1 = before.length + above.length := by omega
    have h2 : before.length + above.length - before.length + 1 = above.length + 1 := by omega
    simp only [List.append_nil, List.length_nil, Nat.zero_add]
    rw [remove_scan_succ]
    simp only [hlt, ↓reduceIte, load_append, Except.bind, he, h1, h2, hshift]
  | cons y skip ih =>
    intro before hskip
    have hy : decode_oop lp64 y ≠ o := hskip y (List.mem_cons_self _ _)
    obtain ⟨stale, hmem, hrec⟩ :=
      ih (before ++ [y]) (fun z hz => hskip z (List.mem_cons_of_mem _ hz))
    refine ⟨stale, hmem, ?_⟩
    have hlt : before.length < (before ++ y :: skip).length + 1 + above.length := by
      simp only [List.length_append, List.length_cons]
      omega
    have hload : load ⟨before ++ y :: skip ++ e :: (above ++ rest),
        (before ++ y :: skip).length + 1 + above.length⟩ (before.length : Int) = .ok y := by
      have h := load_append before (skip ++ e :: (above ++ rest))  y
        ((before ++ y :: skip).length + 1 + above.length)
      simpa using h
    have hfuel : (y :: skip).length + above.length + 2 = (skip.length + above.length + 2) + 1 := by
      simp only [List.length_cons]
      omega
    rw [hfuel, remove_scan_succ]
    simp only [hlt, ↓reduceIte, hload, Except.bind, hy]
    have hlen : (before ++ [y]).length = before.length + 1 := by simp
    rw [hlen] at hrec
    simpa using hrec

theorem exists_first (p : Nat → Prop) :
    ∀ l : List Nat, (∃ e ∈ l, p e) →
      ∃ l1 e l2, l = l1 ++ e :: l2 ∧ p e ∧ ∀ y ∈ l1, ¬ p y := by
  intro l
  induction l with
  | nil => rintro ⟨e, he, _⟩; cases he
  | cons a l ih =>
    rintro ⟨e, he, hp⟩
    by_cases ha : p a
    · exact ⟨[], a, l, rfl, ha, by simp⟩
    · rcases List.mem_cons.mp he with h | h
      · exact absurd (h ▸ hp) ha
      · obtain ⟨l1, e1, l2, hl, hp1, hno⟩ := ih ⟨e, h, hp⟩
        refine ⟨a :: l1, e1, l2, by rw [hl]; rfl, hp1, ?_⟩
        intro y hy
        rcases List.mem_cons.mp hy with h | h
        · exact h ▸ ha
        · exact hno y h

/-- What `remove` does on a stack that fits its buffer, when `e` is the lowest occupied slot that
decodes to `o`. -/
theorem remove_spec (lp64 : Bool) (s : LockStack) (o e : Nat) (l1 l2 : List Nat)
    (h : s._current ≤ s._limit) (hs : entries s = l1 ++ e :: l2)
    (he : decode_oop lp64 e = o) (hl1 : ∀ y ∈ l1, decode_oop lp64 y ≠ o) :
    ∃ s1, remove lp64 s o = .ok s1 ∧ entries s1 = l1 ++ l2 ∧ s1._current + 1 = s._current ∧
      s1._limit = s._limit ∧ ∀ w ∈ s1.mem, w ∈ s.mem := by
  obtain ⟨rest, hrest⟩ := eq_of_entries s h
  rw [hs] at hrest
  obtain ⟨stale, hmem, hscan⟩ := remove_scan_spec lp64 o e l2 rest he l1 [] hl1
  simp only [List.nil_append, List.length_nil] at hscan
  refine ⟨⟨l1 ++ (l2 ++ stale :: rest), l1.length + l2.length⟩, ?_, ?_, ?_, ?_, ?_⟩
  · rw [hrest]
    simp only [remove, _base, List.length_append, List.length_cons]
    have hf : l1.length + (l2.length + 1) + 1 = l1.length + l2.length + 2 := by omega
    have hc : l1.length + (l2.length + 1) = l1.length + 1 + l2.length := by omega
    rw [hf, hc]
    simpa using hscan
  · have := entries_append (l1 ++ l2) (stale :: rest)
    simpa using this
  · rw [hrest]
    simp only [List.length_append, List.length_cons]
    omega
  · rw [hrest]
    simp only [_limit, List.length_append, List.length_cons]
    omega
  · intro w hw
    rw [hrest]
    simp only [List.mem_append, List.mem_cons] at hw hmem ⊢
    rcases hw with hw | hw | hw | hw
    · exact Or.inl (Or.inl hw)
    · exact Or.inl (Or.inr (Or.inr hw))
    · rw [hw]
      rcases hmem with hm | hm
      · exact Or.inl (Or.inr (Or.inl hm))
      · exact Or.inl (Or.inr (Or.inr hm))
    · exact Or.inr hw

end LockStack

namespace LockStack

/-- C3: on a stack that fits its buffer and satisfies the uniqueness invariant, `remove(x)` of a
present reference returns; the occupied entries were `l1 ++ e :: l2` with `e` the only entry that
decodes to `x`, and afterwards they are `l1 ++ l2`: every other raw entry survives, in its
original order, and the size is one less. -/
theorem remove_deletes_single (lp64 : Bool) (s : LockStack) (x : Nat)
    (hfit : s._current ≤ s._limit) (huniq : unique lp64 s)
    (hx : ∃ e ∈ entries s, decode_oop lp64 e = x) :
    ∃ s1 l1 e l2, remove lp64 s x = .ok s1 ∧ entries s = l1 ++ e :: l2 ∧
      decode_oop lp64 e = x ∧ (∀ y ∈ l1 ++ l2, decode_oop lp64 y ≠ x) ∧
      entries s1 = l1 ++ l2 ∧ s1._current + 1 = s._current := by
  obtain ⟨l1, e, l2, hs, he, hl1⟩ := exists_first (fun e => decode_oop lp64 e = x) (entries s) hx
  obtain ⟨s1, hrem, hent, hcur, _, _⟩ := remove_spec lp64 s x e l1 l2 hfit hs he hl1
  refine ⟨s1, l1, e, l2, hrem, hs, he, ?_, hent, hcur⟩
  intro y hy
  rcases List.mem_append.mp hy with h | h
  · exact hl1 y h
  · intro hyx
    unfold unique at huniq
    rw [hs, List.map_append, List.map_cons] at huniq
    have hnd := (List.nodup_append.mp huniq).2.1
    have hnot := (List.nodup_cons.mp hnd).1
    apply hnot
    rw [he, ← hyx]
    exact List.mem_map_of_mem _ h

theorem remove_deletes_single_witness :
    (⟨[8, 16, 24, 35], 4⟩ : LockStack)._current ≤ _limit ⟨[8, 16, 24, 35], 4⟩ ∧
      unique true ⟨[8, 16, 24, 35], 4⟩ ∧
      (∃ e ∈ entries ⟨[8, 16, 24, 35], 4⟩, decode_oop true e = 16) ∧
      remove true ⟨[8, 16, 24, 35], 4⟩ 16 = .ok ⟨[8, 24, 35, 35], 3⟩ ∧
      ∃ s1 l1 e l2, remove true ⟨[8, 16, 24, 35], 4⟩ 16 = .ok s1 ∧
        entries ⟨[8, 16, 24, 35], 4⟩ = l1 ++ e :: l2 ∧
        decode_oop true e = 16 ∧ (∀ y ∈ l1 ++ l2, decode_oop true y ≠ 16) ∧
        entries s1 = l1 ++ l2 ∧ s1._current + 1 = 4 :=
  ⟨by decide, by decide, by decide, by decide,
    remove_deletes_single true ⟨[8, 16, 24, 35], 4⟩ 16 (by decide) (by decide) (by decide)⟩

/-! ## The recursive fast path -/

theorem interleaved_scan_succ (lp64 : Bool) (s : LockStack) (obj fuel : Nat) (loc : Int) :
    interleaved_scan lp64 s obj (fuel + 1) loc =
      if loc ≥ (_base : Int) then
        (load s loc).bind (fun entry =>
          if decode_oop lp64 entry = obj then
            .ok ["missed possible interleaved recursive locking"]
          else interleaved_scan lp64 s obj fuel (loc - 1))
      else .ok [] := rfl

/-- The diagnostic loop started at slot `n - 1` returns: it prints one line when one of the
lowest `n` slots decodes to `obj`, and nothing otherwise. -/
theorem interleaved_scan_spec (lp64 : Bool) (s : LockStack) (obj : Nat) :
    ∀ n : Nat, n ≤ s.mem.length →
      interleaved_scan lp64 s obj (n + 1) ((n : Int) - 1) =
        .ok (if (s.mem.take n).any (fun e => decide (decode_oop lp64 e = obj))
          then ["missed possible interleaved recursive locking"] else []) := by
  intro n
  induction n with
  | zero =>
    intro _
    simp [interleaved_scan_succ, _base]
  | succ n ih =>
    intro hn
    have hlt : n < s.mem.length := by omega
    have hrec := ih (by omega)
    have hloc : ((n + 1 : Nat) : Int) - 1 = (n : Int) := by omega
    have hge : (n : Int) ≥ ((_base : Nat) : Int) := by simp [_base]
    rw [hloc, take_succ_of_lt s.mem n hlt, List.any_append, interleaved_scan_succ, if_pos hge,
      load_of_lt s n hlt]
    by_cases hd : decode_oop lp64 s.mem[n] = obj
    · simp [Except.bind, hd]
    · simp [Except.bind, hd, hrec]

/-- What `try_enter_recursive` does when the top entry `e` decodes to `obj` with a count below
`OOP_MASK`. -/
theorem try_enter_recursive_incr (lp64 : Bool) (below rest : List Nat) (e obj : Nat)
    (hd : decode_oop lp64 e = obj) (hrec : decode_recursion lp64 e < OOP_MASK lp64) :
    try_enter_recursive lp64 ⟨below ++ e :: rest, below.length + 1⟩ obj =
      .ok (true, ⟨below ++ ((e + 1) % 2 ^ word_bits lp64) :: rest, below.length + 1⟩, []) := by
  have hloc : ((below.length + 1 : Nat) : Int) - 1 = (below.length : Int) := by omega
  simp only [try_enter_recursive, hloc, load_append, bind, Except.bind, hd, ↓reduceIte, hrec,
    store_append, pure, Except.pure]

/-- What `try_enter_recursive` does when the top entry `e` decodes to `obj` with a count that is
not below `OOP_MASK`. -/
theorem try_enter_recursive_full (lp64 : Bool) (below rest : List Nat) (e obj : Nat)
    (hd : decode_oop lp64 e = obj) (hrec : ¬ decode_recursion lp64 e < OOP_MASK lp64) :
    try_enter_recursive lp64 ⟨below ++ e :: rest, below.length + 1⟩ obj =
      .ok (false, ⟨below ++ e :: rest, below.length + 1⟩,
        if below.any (fun y => decide (decode_oop lp64 y = obj))
          then ["missed possible interleaved recursive locking"] else []) := by
  have hloc : ((below.length + 1 : Nat) : Int) - 1 = (below.length : Int) := by omega
  have hloc2 : ((below.length + 1 : Nat) : Int) - 2 = (below.length : Int) - 1 := by omega
  have hscan := interleaved_scan_spec lp64 ⟨below ++ e :: rest, below.length + 1⟩ obj
    below.length (by simp)
  simp only [List.take_left] at hscan
  simp only [try_enter_recursive, hloc, hloc2, load_append, bind, Except.bind, hd, ↓reduceIte,
    hrec, hscan, pure, Except.pure]

/-- What `try_enter_recursive` does when the top entry `e` does not decode to `obj`. -/
theorem try_enter_recursive_other (lp64 : Bool) (below rest : List Nat) (e obj : Nat)
    (hd : decode_oop lp64 e ≠ obj) :
    try_enter_recursive lp64 ⟨below ++ e :: rest, below.length + 1⟩ obj =
      .ok (false, ⟨below ++ e :: rest, below.length + 1⟩, []) := by
  have hloc : ((below.length + 1 : Nat) : Int) - 1 = (below.length : Int) := by omega
  simp only [try_enter_recursive, hloc, load_append, bind, Except.bind, hd, ↓reduceIte, pure,
    Except.pure]

/-- What `try_exit_recursive` does when the top entry `e` decodes to `obj` with a count above
zero. -/
theorem try_exit_recursive_decr (lp64 : Bool) (below rest : List Nat) (e obj : Nat)
    (hd : decode_oop lp64 e = obj) (hrec : 0 < decode_recursion lp64 e) :
    try_exit_recursive lp64 ⟨below ++ e :: rest, below.length + 1⟩ obj =
      .ok (true, ⟨below ++ ((e + 2 ^ word_bits lp64 - 1) % 2 ^ word_bits lp64) :: rest,
        below.length + 1⟩) := by
  have hloc : ((below.length + 1 : Nat) : Int) - 1 = (below.length : Int) := by omega
  simp only [try_exit_recursive, hloc, load_append, bind, Except.bind, hd, ↓reduceIte, hrec,
    gt_iff_lt, store_append, pure, Except.pure]

/-- What `try_exit_recursive` does when the top entry `e` does not decode to `obj` or has count
zero. -/
theorem try_exit_recursive_keep (lp64 : Bool) (below rest : List Nat) (e obj : Nat)
    (h : ¬ (decode_oop lp64 e = obj ∧ 0 < decode_recursion lp64 e)) :
    try_exit_recursive lp64 ⟨below ++ e :: rest, below.length + 1⟩ obj =
      .ok (false, ⟨below ++ e :: rest, below.length + 1⟩) := by
  have hloc : ((below.length + 1 : Nat) : Int) - 1 = (below.length : Int) := by omega
  by_cases hd : decode_oop lp64 e = obj
  · have hrec : ¬ 0 < decode_recursion lp64 e := fun hr => h ⟨hd, hr⟩
    simp only [try_exit_recursive, hloc, load_append, bind, Except.bind, hd, ↓reduceIte, hrec,
      gt_iff_lt, pure, Except.pure]
  · simp only [try_exit_recursive, hloc, load_append, bind, Except.bind, hd, ↓reduceIte, pure,
      Except.pure]

/-! ## get_recursions -/

theorem get_recursions_scan_succ (lp64 : Bool) (s : LockStack) (obj fuel : Nat) (loc : Int) :
    get_recursions_scan lp64 s obj (fuel + 1) loc =
      if loc ≥ (_base : Int) then
        (load s loc).bind (fun entry =>
          if decode_oop lp64 entry = obj then .ok (decode_recursion lp64 entry)
          else get_recursions_scan lp64 s obj fuel (loc - 1))
      else .error .should_not_reach_here := rfl

/-- The loop of `get_recursions` started at slot `n - 1`: it returns the count of the highest of
the lowest `n` slots that decodes to `obj`, and reaches `ShouldNotReachHere()` when there is
none. -/
theorem get_recursions_scan_spec (lp64 : Bool) (s : LockStack) (obj : Nat) :
    ∀ n : Nat, n ≤ s.mem.length →
      get_recursions_scan lp64 s obj (n + 1) ((n : Int) - 1) =
        match (s.mem.take n).reverse.find? (fun e => decide (decode_oop lp64 e = obj)) with
        | some e => .ok (decode_recursion lp64 e)
        | none => .error .should_not_reach_here := by
  intro n
  induction n with
  | zero =>
    intro _
    simp [get_recursions_scan_succ, _base]
  | succ n ih =>
    intro hn
    have hlt : n < s.mem.length := by omega
    have hrec := ih (by omega)
    have hloc : ((n + 1 : Nat) : Int) - 1 = (n : Int) := by omega
    have hge : (n : Int) ≥ ((_base : Nat) : Int) := by simp [_base]
    rw [hloc, take_succ_of_lt s.mem n hlt, List.reverse_append, get_recursions_scan_succ,
      if_pos hge, load_of_lt s n hlt]
    by_cases hd : decode_oop lp64 s.mem[n] = obj
    · simp [Except.bind, hd]
    · simp [Except.bind, hd, hrec]

/-- What `get_recursions` does on a stack that fits its buffer, when `e` is the highest occupied
slot that decodes to `obj`. -/
theorem get_recursions_spec (lp64 : Bool) (s : LockStack) (obj e : Nat) (l1 l2 : List Nat)
    (h : s._current ≤ s._limit) (hs : entries s = l1 ++ e :: l2)
    (he : decode_oop lp64 e = obj) (hl2 : ∀ y ∈ l2, decode_oop lp64 y ≠ obj) :
    get_recursions lp64 s obj = .ok (decode_recursion lp64 e) := by
  have hscan := get_recursions_scan_spec lp64 s obj s._current h
  have hfind : (l1 ++ e :: l2).reverse.find? (fun e => decide (decode_oop lp64 e = obj)) =
      some e := by
    rw [List.reverse_append, List.reverse_cons, List.append_assoc, List.find?_append]
    have hnone : l2.reverse.find? (fun e => decide (decode_oop lp64 e = obj)) = none := by
      rw [List.find?_eq_none]
      intro y hy
      simpa using hl2 y (List.mem_reverse.mp hy)
    rw [hnone]
    simp [he]
  unfold entries at hs
  rw [hs, hfind] at hscan
  exact hscan

end LockStack

namespace LockStack

theorem exists_last (p : Nat → Prop) (l : List Nat) (h : ∃ e ∈ l, p e) :
    ∃ l1 e l2, l = l1 ++ e :: l2 ∧ p e ∧ ∀ y ∈ l2, ¬ p y := by
  have hrev : ∃ e ∈ l.reverse, p e := by
    obtain ⟨e, he, hp⟩ := h
    exact ⟨e, List.mem_reverse.mpr he, hp⟩
  obtain ⟨r1, e, r2, hl, hp, hno⟩ := exists_first p l.reverse hrev
  refine ⟨r2.reverse, e, r1.reverse, ?_, hp, fun y hy => hno y (List.mem_reverse.mp hy)⟩
  have := congrArg List.reverse hl
  simpa using this

theorem word_of_entries (lp64 : Bool) (s : LockStack) (hwf : wf lp64 s) (e : Nat)
    (he : e ∈ entries s) : e < 2 ^ word_bits lp64 :=
  hwf.2 e (List.mem_of_mem_take he)

/-- C4: on a stack that fits its buffer and whose top entry `e` decodes to `a` with a count `c`
below `OOP_MASK`, `try_enter_recursive(a)` returns true; the top entry becomes `e + 1`, which
decodes to `a` with count `c + 1`; the entries below and the size are unchanged;
`get_recursions(a)` then returns `c + 1`; and a following `try_exit_recursive(a)` returns true
and gives back exactly the original stack. -/
theorem enter_exit_recursive (lp64 : Bool) (s : LockStack) (below : List Nat) (e a c : Nat)
    (hwf : wf lp64 s) (hs : entries s = below ++ [e]) (ha : decode_oop lp64 e = a)
    (hc : decode_recursion lp64 e = c) (hmax : c < OOP_MASK lp64) :
    ∃ s1, try_enter_recursive lp64 s a = .ok (true, s1, []) ∧
      entries s1 = below ++ [e + 1] ∧ s1._current = s._current ∧
      decode_oop lp64 (e + 1) = a ∧ decode_recursion lp64 (e + 1) = c + 1 ∧
      get_recursions lp64 s1 a = .ok (c + 1) ∧
      try_exit_recursive lp64 s1 a = .ok (true, s) := by
  have he : e < 2 ^ word_bits lp64 := word_of_entries lp64 s hwf e (by rw [hs]; simp)
  obtain ⟨rest, rfl⟩ := eq_of_entries_snoc s below e hwf.1 hs
  subst hc
  obtain ⟨hmod, hlt, hoop, hrec⟩ := incr_spec lp64 e he hmax
  obtain ⟨hmod2, _, _, _⟩ := decr_spec lp64 (e + 1) hlt (by omega)
  have henter := try_enter_recursive_incr lp64 below rest e a ha hmax
  rw [hmod] at henter
  have hexit := try_exit_recursive_decr lp64 below rest (e + 1) a (hoop.trans ha) (by omega)
  rw [hmod2, Nat.add_sub_cancel] at hexit
  refine ⟨_, henter, entries_append_cons _ _ _, rfl, hoop.trans ha, hrec, ?_, hexit⟩
  rw [← hrec]
  refine get_recursions_spec lp64 _ a (e + 1) below [] ?_ (entries_append_cons _ _ _)
    (hoop.trans ha) (by simp)
  simp [_limit]

theorem enter_exit_recursive_witness :
    push empty 8 = .ok ⟨[8], 1⟩ ∧ wf true ⟨[8], 1⟩ ∧ entries ⟨[8], 1⟩ = [] ++ [8] ∧
      decode_oop true 8 = 8 ∧ decode_recursion true 8 = 0 ∧ 0 < OOP_MASK true ∧
      ∃ s1, try_enter_recursive true ⟨[8], 1⟩ 8 = .ok (true, s1, []) ∧
        entries s1 = [] ++ [8 + 1] ∧ s1._current = 1 ∧
        decode_oop true (8 + 1) = 8 ∧ decode_recursion true (8 + 1) = 0 + 1 ∧
        get_recursions true s1 8 = .ok (0 + 1) ∧
        try_exit_recursive true s1 8 = .ok (true, ⟨[8], 1⟩) :=
  ⟨by decide, by decide, by decide, by decide, by decide, by decide,
    enter_exit_recursive true ⟨[8], 1⟩ [] 8 8 0 (by decide) (by decide) (by decide) (by decide)
      (by decide)⟩

/-- C5: on a stack that fits its buffer and whose top entry `e` does not decode to `x`,
`try_enter_recursive(x)` returns false, prints nothing and leaves the whole stack as it was,
whatever the slots below the top hold (`x` included). -/
theorem try_enter_recursive_not_top (lp64 : Bool) (s : LockStack) (below : List Nat) (e x : Nat)
    (hfit : s._current ≤ s._limit) (hs : entries s = below ++ [e])
    (hx : decode_oop lp64 e ≠ x) :
    try_enter_recursive lp64 s x = .ok (false, s, []) := by
  obtain ⟨rest, rfl⟩ := eq_of_entries_snoc s below e hfit hs
  exact try_enter_recursive_other lp64 below rest e x hx

theorem try_enter_recursive_not_top_witness :
    (⟨[8, 16, 24], 2⟩ : LockStack)._current ≤ _limit ⟨[8, 16, 24], 2⟩ ∧
      entries ⟨[8, 16, 24], 2⟩ = [8] ++ [16] ∧ decode_oop true 16 ≠ 8 ∧
      try_enter_recursive true ⟨[8, 16, 24], 2⟩ 8 = .ok (false, ⟨[8, 16, 24], 2⟩, []) :=
  ⟨by decide, by decide, by decide,
    try_enter_recursive_not_top true ⟨[8, 16, 24], 2⟩ [8] 16 8 (by decide) (by decide)
      (by decide)⟩

/-- C6, as stated, fails: under `_LP64` (`T = 3`) the one-slot stack whose entry `14` decodes to
reference `8` with count `6 = 2 ^ T - 2` is entered recursively with success, and its count
becomes `7 = 2 ^ T - 1`. -/
theorem try_enter_recursive_succeeds_two_below :
    decode_oop true 14 = 8 ∧ decode_recursion true 14 = 2 ^ tag_bits true - 2 ∧
      try_enter_recursive true ⟨[14], 1⟩ 8 = .ok (true, ⟨[15], 1⟩, []) ∧
      decode_recursion true 15 = 2 ^ tag_bits true - 1 := by
  decide

/-- C6, amended: on a stack that fits its buffer and whose top entry `e` decodes to `ref`,
`try_enter_recursive(ref)` returns, and returns true exactly when the count of `e` is below
`2 ^ T - 1 = OOP_MASK`; on true the top entry is `e + 1` with a count one higher, which is at
most `2 ^ T - 1`; on false (count equal to `2 ^ T - 1`) the stack is unchanged. -/
theorem try_enter_recursive_iff_below_mask (lp64 : Bool) (s : LockStack) (below : List Nat)
    (e ref : Nat) (hwf : wf lp64 s) (hs : entries s = below ++ [e])
    (href : decode_oop lp64 e = ref) :
    ∃ b s1 out, try_enter_recursive lp64 s ref = .ok (b, s1, out) ∧
      (b = true ↔ decode_recursion lp64 e < 2 ^ tag_bits lp64 - 1) ∧
      (b = true → entries s1 = below ++ [e + 1] ∧
        decode_recursion lp64 (e + 1) = decode_recursion lp64 e + 1 ∧
        decode_recursion lp64 (e + 1) ≤ 2 ^ tag_bits lp64 - 1) ∧
      (b = false → s1 = s ∧ decode_recursion lp64 e = 2 ^ tag_bits lp64 - 1) := by
  have he : e < 2 ^ word_bits lp64 := word_of_entries lp64 s hwf e (by rw [hs]; simp)
  obtain ⟨rest, rfl⟩ := eq_of_entries_snoc s below e hwf.1 hs
  rw [← OOP_MASK_eq]
  by_cases hrec : decode_recursion lp64 e < OOP_MASK lp64
  · obtain ⟨hmod, _, _, hrec1⟩ := incr_spec lp64 e he hrec
    have henter := try_enter_recursive_incr lp64 below rest e ref href hrec
    rw [hmod] at henter
    refine ⟨true, _, [], henter, by simp [hrec], fun _ => ⟨entries_append_cons _ _ _, hrec1, ?_⟩,
      by simp⟩
    exact decode_recursion_le lp64 (e + 1)
  · refine ⟨false, _, _, try_enter_recursive_full lp64 below rest e ref href hrec, by simp [hrec],
      by simp, fun _ => ⟨rfl, ?_⟩⟩
    have := decode_recursion_le lp64 e
    omega

theorem try_enter_recursive_iff_below_mask_witness :
    wf true ⟨[8, 22], 2⟩ ∧ entries ⟨[8, 22], 2⟩ = [8] ++ [22] ∧ decode_oop true 22 = 16 ∧
      ∃ b s1 out, try_enter_recursive true ⟨[8, 22], 2⟩ 16 = .ok (b, s1, out) ∧
        (b = true ↔ decode_recursion true 22 < 2 ^ tag_bits true - 1) ∧
        (b = true → entries s1 = [8] ++ [22 + 1] ∧
          decode_recursion true (22 + 1) = decode_recursion true 22 + 1 ∧
          decode_recursion true (22 + 1) ≤ 2 ^ tag_bits true - 1) ∧
        (b = false → s1 = ⟨[8, 22], 2⟩ ∧ decode_recursion true 22 = 2 ^ tag_bits true - 1) :=
  ⟨by decide, by decide, by decide,
    try_enter_recursive_iff_below_mask true ⟨[8, 22], 2⟩ [8] 22 16 (by decide) (by decide)
      (by decide)⟩

/-- C7: on a stack that fits its buffer and whose top entry `e` decodes to `ref` with the count
at its maximum `OOP_MASK`, `try_enter_recursive(ref)` returns false and leaves the whole stack as
it was; the diagnostic scan of the slots below only decides whether one line is printed. -/
theorem try_enter_recursive_at_max (lp64 : Bool) (s : LockStack) (below : List Nat)
    (e ref : Nat) (hfit : s._current ≤ s._limit) (hs : entries s = below ++ [e])
    (href : decode_oop lp64 e = ref) (hmax : decode_recursion lp64 e = OOP_MASK lp64) :
    try_enter_recursive lp64 s ref =
      .ok (false, s, if below.any (fun y => decide (decode_oop lp64 y = ref))
        then ["missed possible interleaved recursive locking"] else []) := by
  obtain ⟨rest, rfl⟩ := eq_of_entries_snoc s below e hfit hs
  exact try_enter_recursive_full lp64 below rest e ref href (by omega)

theorem try_enter_recursive_at_max_witness :
    (⟨[16, 8, 23], 3⟩ : LockStack)._current ≤ _limit ⟨[16, 8, 23], 3⟩ ∧
      entries ⟨[16, 8, 23], 3⟩ = [16, 8] ++ [23] ∧ decode_oop true 23 = 16 ∧
      decode_recursion true 23 = OOP_MASK true ∧
      try_enter_recursive true ⟨[16, 8, 23], 3⟩ 16 =
        .ok (false, ⟨[16, 8, 23], 3⟩,
          if [16, 8].any (fun y => decide (decode_oop true y = 16))
            then ["missed possible interleaved recursive locking"] else []) :=
  ⟨by decide, by decide, by decide, by decide,
    try_enter_recursive_at_max true ⟨[16, 8, 23], 3⟩ [16, 8] 23 16 (by decide) (by decide)
      (by decide) (by decide)⟩

/-- C8: on a stack that fits its buffer and whose top entry is `e`, `try_exit_recursive(ref)`
returns, and returns true exactly when `e` decodes to `ref` and its count is above zero; on true
the top entry is `e - 1`, with the same reference and a count one lower, and the entries below
and the size are unchanged; on false the whole stack is unchanged. -/
theorem try_exit_recursive_iff (lp64 : Bool) (s : LockStack) (below : List Nat) (e ref : Nat)
    (hwf : wf lp64 s) (hs : entries s = below ++ [e]) :
    ∃ b s1, try_exit_recursive lp64 s ref = .ok (b, s1) ∧
      (b = true ↔ decode_oop lp64 e = ref ∧ 0 < decode_recursion lp64 e) ∧
      (b = true → entries s1 = below ++ [e - 1] ∧ s1._current = s._current ∧
        decode_oop lp64 (e - 1) = decode_oop lp64 e ∧
        decode_recursion lp64 (e - 1) + 1 = decode_recursion lp64 e) ∧
      (b = false → s1 = s) := by
  have he : e < 2 ^ word_bits lp64 := word_of_entries lp64 s hwf e (by rw [hs]; simp)
  obtain ⟨rest, rfl⟩ := eq_of_entries_snoc s below e hwf.1 hs
  by_cases h : decode_oop lp64 e = ref ∧ 0 < decode_recursion lp64 e
  · obtain ⟨hmod, _, hoop, hrec⟩ := decr_spec lp64 e he h.2
    have hexit := try_exit_recursive_decr lp64 below rest e ref h.1 h.2
    rw [hmod] at hexit
    exact ⟨true, _, hexit, by simp [h], fun _ => ⟨entries_append_cons _ _ _, rfl, hoop, hrec⟩,
      by simp⟩
  · exact ⟨false, _, try_exit_recursive_keep lp64 below rest e ref h, by simp [h], by simp,
      fun _ => rfl⟩

theorem try_exit_recursive_iff_witness :
    wf true ⟨[8, 18], 2⟩ ∧ entries ⟨[8, 18], 2⟩ = [8] ++ [18] ∧
      ∃ b s1, try_exit_recursive true ⟨[8, 18], 2⟩ 16 = .ok (b, s1) ∧
        (b = true ↔ decode_oop true 18 = 16 ∧ 0 < decode_recursion true 18) ∧
        (b = true → entries s1 = [8] ++ [18 - 1] ∧ s1._current = 2 ∧
          decode_oop true (18 - 1) = decode_oop true 18 ∧
          decode_recursion true (18 - 1) + 1 = decode_recursion true 18) ∧
        (b = false → s1 = ⟨[8, 18], 2⟩) :=
  ⟨by decide, by decide,
    try_exit_recursive_iff true ⟨[8, 18], 2⟩ [8] 18 16 (by decide) (by decide)⟩

/-- C9: on a stack that fits its buffer and in which `ref` is present, `get_recursions(ref)`
returns (it does not reach `ShouldNotReachHere()`), and returns the count of the topmost entry
`e` that decodes to `ref`; the result is at most `2 ^ T - 1`; under the uniqueness invariant no
other entry decodes to `ref`.  Its result is a count only: the stack is not written. -/
theorem get_recursions_present (lp64 : Bool) (s : LockStack) (ref : Nat)
    (hfit : s._current ≤ s._limit) (hpresent : ∃ e ∈ entries s, decode_oop lp64 e = ref) :
    ∃ l1 e l2, entries s = l1 ++ e :: l2 ∧ decode_oop lp64 e = ref ∧
      (∀ y ∈ l2, decode_oop lp64 y ≠ ref) ∧
      get_recursions lp64 s ref = .ok (decode_recursion lp64 e) ∧
      decode_recursion lp64 e ≤ 2 ^ tag_bits lp64 - 1 ∧
      (unique lp64 s → ∀ y ∈ l1, decode_oop lp64 y ≠ ref) := by
  obtain ⟨l1, e, l2, hs, he, hl2⟩ :=
    exists_last (fun e => decode_oop lp64 e = ref) (entries s) hpresent
  refine ⟨l1, e, l2, hs, he, hl2, get_recursions_spec lp64 s ref e l1 l2 hfit hs he hl2, ?_, ?_⟩
  · rw [← OOP_MASK_eq]
    exact decode_recursion_le lp64 e
  · intro huniq y hy hyref
    unfold unique at huniq
    rw [hs, List.map_append, List.map_cons] at huniq
    have hdisj := (List.nodup_append.mp huniq).2.2
    refine hdisj (List.mem_map_of_mem _ hy) ?_
    rw [hyref, he]
    exact List.mem_cons_self _ _

theorem get_recursions_present_witness :
    (⟨[8, 16, 29, 0], 3⟩ : LockStack)._current ≤ _limit ⟨[8, 16, 29, 0], 3⟩ ∧
      (∃ e ∈ entries ⟨[8, 16, 29, 0], 3⟩, decode_oop true e = 24) ∧
      get_recursions true ⟨[8, 16, 29, 0], 3⟩ 24 = .ok 5 ∧
      ∃ l1 e l2, entries ⟨[8, 16, 29, 0], 3⟩ = l1 ++ e :: l2 ∧ decode_oop true e = 24 ∧
        (∀ y ∈ l2, decode_oop true y ≠ 24) ∧
        get_recursions true ⟨[8, 16, 29, 0], 3⟩ 24 = .ok (decode_recursion true e) ∧
        decode_recursion true e ≤ 2 ^ tag_bits true - 1 ∧
        (unique true ⟨[8, 16, 29, 0], 3⟩ → ∀ y ∈ l1, decode_oop true y ≠ 24) :=
  ⟨by decide, by decide, by decide,
    get_recursions_present true ⟨[8, 16, 29, 0], 3⟩ 24 (by decide) (by decide)⟩

end LockStack

namespace LockStack

/-! ## Packing a reference and a count into one word -/

/-- The word `o | r` of an aligned reference `o` and a count `r` of at most `OOP_MASK`: it is
`o + r`, a machine word, and decodes to `o` and `r`. -/
theorem combine_spec (lp64 : Bool) (o r : Nat) (ho : aligned lp64 o) (hr : r ≤ OOP_MASK lp64) :
    o ||| r = o + r ∧ o ||| r < 2 ^ word_bits lp64 ∧ decode_oop lp64 (o ||| r) = o ∧
      decode_recursion lp64 (o ||| r) = r := by
  obtain ⟨hlt, hrec⟩ := ho
  rw [decode_recursion_eq_mod] at hrec
  have hr2 : r < 2 ^ tag_bits lp64 := by
    rw [OOP_MASK_eq] at hr
    have := Nat.two_pow_pos (tag_bits lp64)
    omega
  have hmul : 2 ^ tag_bits lp64 * (o / 2 ^ tag_bits lp64) = o := by
    have := Nat.div_add_mod o (2 ^ tag_bits lp64)
    omega
  have hor : o ||| r = o + r := by
    have := Nat.mul_add_lt_is_or hr2 (o / 2 ^ tag_bits lp64)
    rw [hmul] at this
    exact this.symm
  have hsum : o + r < 2 ^ word_bits lp64 := by
    cases lp64 <;> simp [word_bits, tag_bits] at * <;> omega
  rw [hor]
  refine ⟨rfl, hsum, ?_, ?_⟩
  · rw [decode_oop_eq_sub lp64 _ hsum]
    cases lp64 <;> simp [word_bits, tag_bits] at * <;> omega
  · rw [decode_recursion_eq_mod]
    cases lp64 <;> simp [word_bits, tag_bits] at * <;> omega

theorem aligned_decode_oop (lp64 : Bool) (e : Nat) (he : e < 2 ^ word_bits lp64) :
    aligned lp64 (decode_oop lp64 e) := by
  refine ⟨decode_oop_lt lp64 e he, ?_⟩
  rw [decode_recursion_eq_mod, decode_oop_eq_sub lp64 e he]
  cases lp64 <;> simp [word_bits, tag_bits] at * <;> omega

/-- C15: for every machine word `e`, `decode_oop(e)` has its tag bits zero,
`decode_recursion(e)` is at most `OOP_MASK` and `decode_oop(e) | decode_recursion(e)` is `e`;
for every aligned reference `o`, `encode_oop(o)` decodes to `o` with count `0`, and for every
count `r` of at most `OOP_MASK` the word `encode_oop(o) | r` decodes to `o` and to `r`. -/
theorem packing_lossless (lp64 : Bool) (e o r : Nat) (he : e < 2 ^ word_bits lp64)
    (ho : aligned lp64 o) (hr : r ≤ OOP_MASK lp64) :
    (decode_recursion lp64 (decode_oop lp64 e) = 0 ∧ decode_recursion lp64 e ≤ OOP_MASK lp64 ∧
      decode_oop lp64 e ||| decode_recursion lp64 e = e) ∧
    (decode_oop lp64 (encode_oop o) = o ∧ decode_recursion lp64 (encode_oop o) = 0) ∧
    (decode_oop lp64 (encode_oop o ||| r) = o ∧ decode_recursion lp64 (encode_oop o ||| r) = r) := by
  have hal := aligned_decode_oop lp64 e he
  have hle := decode_recursion_le lp64 e
  obtain ⟨hor, _, _, _⟩ := combine_spec lp64 _ _ hal hle
  obtain ⟨_, _, hd, hc⟩ := combine_spec lp64 o r ho hr
  refine ⟨⟨hal.2, hle, ?_⟩, ⟨decode_oop_of_aligned lp64 o ho, ho.2⟩, hd, hc⟩
  rw [hor, decode_oop_eq_sub lp64 e he, decode_recursion_eq_mod]
  have := Nat.mod_le e (2 ^ tag_bits lp64)
  omega

theorem packing_lossless_witness :
    29 < 2 ^ word_bits true ∧ aligned true 24 ∧ 5 ≤ OOP_MASK true ∧
      (decode_recursion true (decode_oop true 29) = 0 ∧ decode_recursion true 29 ≤ OOP_MASK true ∧
        decode_oop true 29 ||| decode_recursion true 29 = 29) ∧
      (decode_oop true (encode_oop 24) = 24 ∧ decode_recursion true (encode_oop 24) = 0) ∧
      (decode_oop true (encode_oop 24 ||| 5) = 24 ∧
        decode_recursion true (encode_oop 24 ||| 5) = 5) :=
  ⟨by decide, by decide, by decide,
    packing_lossless true 29 24 5 (by decide) (by decide) (by decide)⟩

/-- C16: for every machine word `e` whose count is below `OOP_MASK`, `entry++` does not wrap
and gives a word with the same reference and a count one higher; for every machine word `e`
whose count is above zero, `entry--` does not wrap and gives a word with the same reference and
a count one lower.  So the counter never carries into or borrows from the reference bits. -/
theorem counter_keeps_reference (lp64 : Bool) (e : Nat) (he : e < 2 ^ word_bits lp64) :
    (decode_recursion lp64 e < OOP_MASK lp64 →
      (e + 1) % 2 ^ word_bits lp64 = e + 1 ∧
      decode_oop lp64 ((e + 1) % 2 ^ word_bits lp64) = decode_oop lp64 e ∧
      decode_recursion lp64 ((e + 1) % 2 ^ word_bits lp64) = decode_recursion lp64 e + 1) ∧
    (0 < decode_recursion lp64 e →
      (e + 2 ^ word_bits lp64 - 1) % 2 ^ word_bits lp64 = e - 1 ∧ 0 < e ∧
      decode_oop lp64 ((e + 2 ^ word_bits lp64 - 1) % 2 ^ word_bits lp64) = decode_oop lp64 e ∧
      decode_recursion lp64 ((e + 2 ^ word_bits lp64 - 1) % 2 ^ word_bits lp64) =
        decode_recursion lp64 e - 1) := by
  constructor
  · intro hrec
    obtain ⟨hmod, _, hoop, hcnt⟩ := incr_spec lp64 e he hrec
    rw [hmod]
    exact ⟨rfl, hoop, hcnt⟩
  · intro hrec
    obtain ⟨hmod, hpos, hoop, hcnt⟩ := decr_spec lp64 e he hrec
    rw [hmod]
    exact ⟨rfl, hpos, hoop, by omega⟩

theorem counter_keeps_reference_witness :
    29 < 2 ^ word_bits true ∧ decode_recursion true 29 < OOP_MASK true ∧
      0 < decode_recursion true 29 ∧
      ((29 + 1) % 2 ^ word_bits true = 29 + 1 ∧
        decode_oop true ((29 + 1) % 2 ^ word_bits true) = decode_oop true 29 ∧
        decode_recursion true ((29 + 1) % 2 ^ word_bits true) = decode_recursion true 29 + 1) ∧
      ((29 + 2 ^ word_bits true - 1) % 2 ^ word_bits true = 29 - 1 ∧ 0 < 29 ∧
        decode_oop true ((29 + 2 ^ word_bits true - 1) % 2 ^ word_bits true) =
          decode_oop true 29 ∧
        decode_recursion true ((29 + 2 ^ word_bits true - 1) % 2 ^ word_bits true) =
          decode_recursion true 29 - 1) :=
  ⟨by decide, by decide, by decide,
    (counter_keeps_reference true 29 (by decide)).1 (by decide),
    (counter_keeps_reference true 29 (by decide)).2 (by decide)⟩

end LockStack

namespace LockStack

/-! ## oops_do -/

theorem oops_do_scan_succ (lp64 : Bool) (cl : Nat → Nat) (fuel loc : Nat) (s : LockStack) :
    oops_do_scan lp64 cl (fuel + 1) loc s =
      if loc < s._current then
        (load s loc).bind (fun entry =>
          (store s loc (relocated lp64 cl entry)).bind (fun s1 =>
            (oops_do_scan lp64 cl fuel (loc + 1) s1).bind (fun r =>
              .ok (r.1, (loc, decode_oop lp64 entry) :: r.2))))
      else .ok (s, []) := rfl

/-- The loop of `oops_do`, started at the first of the slots `todo`: it returns, every slot of
`todo` holds its relocated word, nothing else has changed, and `do_oop` has been called once
for each slot of `todo`, bottom first, with the reference the slot decoded to. -/
theorem oops_do_scan_spec (lp64 : Bool) (cl : Nat → Nat) (rest : List Nat) (c : Nat) :
    ∀ (todo before : List Nat), c = before.length + todo.length →
      oops_do_scan lp64 cl (todo.length + 1) before.length ⟨before ++ (todo ++ rest), c⟩ =
        .ok (⟨before ++ (todo.map (relocated lp64 cl) ++ rest), c⟩,
          List.enumFrom before.length (todo.map (decode_oop lp64))) := by
  intro todo
  induction todo with
  | nil =>
    intro before hc
    have hlt : ¬ before.length < c := by simp [hc]
    rw [oops_do_scan_succ]
    simp [hlt]
  | cons t todo ih =>
    intro before hc
    have hlt : before.length < c := by simp [hc]
    have hc1 : c = (before ++ [relocated lp64 cl t]).length + todo.length := by
      simp only [hc, List.length_append, List.length_cons, List.length_nil]
      omega
    have hrec := ih (before ++ [relocated lp64 cl t]) hc1
    have hlen : (before ++ [relocated lp64 cl t]).length = before.length + 1 := by simp
    rw [hlen] at hrec
    simp only [List.append_assoc, List.singleton_append] at hrec
    have hfuel : (t :: todo).length + 1 = (todo.length + 1) + 1 := rfl
    rw [hfuel, oops_do_scan_succ]
    simp only [hlt, ↓reduceIte, List.cons_append, load_append, Except.bind, store_append, hrec,
      List.map_cons, List.enumFrom_cons]

/-- What `oops_do` does on a stack that fits its buffer. -/
theorem oops_do_spec (lp64 : Bool) (cl : Nat → Nat) (s : LockStack)
    (h : s._current ≤ s._limit) :
    ∃ s1, oops_do lp64 cl s = .ok s1 ∧
      oops_do_calls lp64 cl s = .ok (List.enumFrom 0 ((entries s).map (decode_oop lp64))) ∧
      entries s1 = (entries s).map (relocated lp64 cl) ∧ s1._current = s._current ∧
      s1._limit = s._limit ∧ ∀ w ∈ s1.mem, w ∈ s.mem ∨ ∃ e ∈ entries s, w = relocated lp64 cl e := by
  obtain ⟨rest, hs⟩ := eq_of_entries s h
  have hscan := oops_do_scan_spec lp64 cl rest (entries s).length (entries s) [] (by simp)
  simp only [List.nil_append, List.length_nil] at hscan
  generalize entries s = es at hs hscan ⊢
  subst hs
  refine ⟨⟨es.map (relocated lp64 cl) ++ rest, es.length⟩, ?_, ?_, ?_, rfl, ?_, ?_⟩
  · simp only [oops_do, _base, hscan, bind, Except.bind, pure, Except.pure]
  · simp only [oops_do_calls, _base, hscan, bind, Except.bind, pure, Except.pure]
  · have := entries_append (es.map (relocated lp64 cl)) rest
    simpa using this
  · simp [_limit]
  · intro w hw
    simp only [List.mem_append, List.mem_map] at hw ⊢
    rcases hw with ⟨e, he, hw⟩ | hw
    · exact Or.inr ⟨e, he, hw.symm⟩
    · exact Or.inl (Or.inr hw)

end LockStack

namespace LockStack

theorem relocated_spec (lp64 : Bool) (cl : Nat → Nat) (e : Nat)
    (hcl : aligned lp64 (cl (decode_oop lp64 e))) :
    relocated lp64 cl e < 2 ^ word_bits lp64 ∧
      decode_oop lp64 (relocated lp64 cl e) = cl (decode_oop lp64 e) ∧
      decode_recursion lp64 (relocated lp64 cl e) = decode_recursion lp64 e := by
  obtain ⟨_, hlt, hd, hc⟩ := combine_spec lp64 _ _ hcl (decode_recursion_le lp64 e)
  exact ⟨hlt, hd, hc⟩

theorem contains_true_iff (lp64 : Bool) (s : LockStack) (o : Nat) (h : s._current ≤ s._limit) :
    contains lp64 s o = .ok true ↔ ∃ e ∈ entries s, decode_oop lp64 e = o := by
  rw [contains_spec lp64 s o h, ← any_decode_iff]
  constructor
  · intro hc
    injection hc
  · intro hc
    rw [hc]

theorem contains_false_iff (lp64 : Bool) (s : LockStack) (o : Nat) (h : s._current ≤ s._limit) :
    contains lp64 s o = .ok false ↔ ∀ e ∈ entries s, decode_oop lp64 e ≠ o := by
  rw [contains_spec lp64 s o h]
  constructor
  · intro hc e he hd
    have hany := (any_decode_iff lp64 (entries s) o).mpr ⟨e, he, hd⟩
    rw [hany] at hc
    injection hc with hc
    exact Bool.noConfusion hc
  · intro hno
    congr 1
    rw [Bool.eq_false_iff]
    intro hany
    obtain ⟨e, he, hd⟩ := (any_decode_iff lp64 (entries s) o).mp hany
    exact hno e he hd

/-- C11: on a stack that fits its buffer, with a callback `f` that leaves an aligned reference
for every reference of the stack, `oops_do` returns; it calls `f` once for each occupied slot,
bottom first, with the reference the slot decodes to; the size is unchanged; slot `i` then holds
`f` of its old reference together with its old recursion count.  So `contains(f(a))` holds
afterwards for every `a` contained before, and when `f` is injective on the references of the
stack `get_recursions(f(a))` afterwards is `get_recursions(a)` before. -/
theorem oops_do_relocates (lp64 : Bool) (s : LockStack) (f : Nat → Nat)
    (hfit : s._current ≤ s._limit)
    (hf : ∀ e ∈ entries s, aligned lp64 (f (decode_oop lp64 e))) :
    ∃ s1, oops_do lp64 f s = .ok s1 ∧
      oops_do_calls lp64 f s = .ok (List.enumFrom 0 ((entries s).map (decode_oop lp64))) ∧
      s1._current = s._current ∧
      entries s1 = (entries s).map (relocated lp64 f) ∧
      (∀ e ∈ entries s, decode_oop lp64 (relocated lp64 f e) = f (decode_oop lp64 e) ∧
        decode_recursion lp64 (relocated lp64 f e) = decode_recursion lp64 e) ∧
      (∀ a, contains lp64 s a = .ok true → contains lp64 s1 (f a) = .ok true) ∧
      ((∀ x ∈ entries s, ∀ y ∈ entries s, f (decode_oop lp64 x) = f (decode_oop lp64 y) →
          decode_oop lp64 x = decode_oop lp64 y) →
        ∀ a, contains lp64 s a = .ok true →
          get_recursions lp64 s1 (f a) = get_recursions lp64 s a) := by
  obtain ⟨s1, hdo, hcalls, hent, hcur, hlim, _⟩ := oops_do_spec lp64 f s hfit
  have hfit1 : s1._current ≤ s1._limit := by rw [hcur, hlim]; exact hfit
  refine ⟨s1, hdo, hcalls, hcur, hent, fun e he => (relocated_spec lp64 f e (hf e he)).2, ?_, ?_⟩
  · intro a ha
    obtain ⟨e, he, hd⟩ := (contains_true_iff lp64 s a hfit).mp ha
    refine (contains_true_iff lp64 s1 (f a) hfit1).mpr ⟨relocated lp64 f e, ?_, ?_⟩
    · rw [hent]
      exact List.mem_map_of_mem _ he
    · rw [(relocated_spec lp64 f e (hf e he)).2.1, hd]
  · intro hinj a ha
    obtain ⟨l1, e, l2, hs, he, hl2⟩ := exists_last (fun e => decode_oop lp64 e = a) (entries s)
      ((contains_true_iff lp64 s a hfit).mp ha)
    have hmem : e ∈ entries s := by rw [hs]; simp
    have hspec := relocated_spec lp64 f e (hf e hmem)
    rw [get_recursions_spec lp64 s a e l1 l2 hfit hs he hl2, ← hspec.2.2]
    refine get_recursions_spec lp64 s1 (f a) (relocated lp64 f e) (l1.map (relocated lp64 f))
      (l2.map (relocated lp64 f)) hfit1 ?_ ?_ ?_
    · rw [hent, hs, List.map_append, List.map_cons]
    · rw [hspec.2.1, he]
    · intro y hy hyd
      obtain ⟨x, hx, rfl⟩ := List.mem_map.mp hy
      have hxmem : x ∈ entries s := by rw [hs]; simp [hx]
      rw [(relocated_spec lp64 f x (hf x hxmem)).2.1, ← he] at hyd
      exact hl2 x hx ((hinj x hxmem e hmem hyd).trans he)

theorem oops_do_relocates_witness :
    (⟨[8, 16, 29, 7], 3⟩ : LockStack)._current ≤ _limit ⟨[8, 16, 29, 7], 3⟩ ∧
      (∀ e ∈ entries ⟨[8, 16, 29, 7], 3⟩, aligned true (decode_oop true e + 64)) ∧
      oops_do true (fun p => p + 64) ⟨[8, 16, 29, 7], 3⟩ = .ok ⟨[72, 80, 93, 7], 3⟩ ∧
      oops_do_calls true (fun p => p + 64) ⟨[8, 16, 29, 7], 3⟩ = .ok [(0, 8), (1, 16), (2, 24)] ∧
      get_recursions true ⟨[8, 16, 29, 7], 3⟩ 24 = .ok 5 ∧
      get_recursions true ⟨[72, 80, 93, 7], 3⟩ 88 = .ok 5 ∧
      ∃ s1, oops_do true (fun p => p + 64) ⟨[8, 16, 29, 7], 3⟩ = .ok s1 ∧
        oops_do_calls true (fun p => p + 64) ⟨[8, 16, 29, 7], 3⟩ =
          .ok (List.enumFrom 0 ((entries ⟨[8, 16, 29, 7], 3⟩).map (decode_oop true))) ∧
        s1._current = 3 ∧
        entries s1 = (entries ⟨[8, 16, 29, 7], 3⟩).map (relocated true (fun p => p + 64)) ∧
        (∀ e ∈ entries ⟨[8, 16, 29, 7], 3⟩,
          decode_oop true (relocated true (fun p => p + 64) e) = decode_oop true e + 64 ∧
          decode_recursion true (relocated true (fun p => p + 64) e) =
            decode_recursion true e) ∧
        (∀ a, contains true ⟨[8, 16, 29, 7], 3⟩ a = .ok true →
          contains true s1 (a + 64) = .ok true) ∧
        ((∀ x ∈ entries ⟨[8, 16, 29, 7], 3⟩, ∀ y ∈ entries ⟨[8, 16, 29, 7], 3⟩,
            decode_oop true x + 64 = decode_oop true y + 64 →
            decode_oop true x = decode_oop true y) →
          ∀ a, contains true ⟨[8, 16, 29, 7], 3⟩ a = .ok true →
            get_recursions true s1 (a + 64) = get_recursions true ⟨[8, 16, 29, 7], 3⟩ a) :=
  ⟨by decide, by decide, by decide, by decide, by decide, by decide,
    oops_do_relocates true ⟨[8, 16, 29, 7], 3⟩ (fun p => p + 64) (by decide) (by decide)⟩

end LockStack

namespace LockStack

/-! ## Growth of the buffer in push -/

theorem store_limit (s s1 : LockStack) (loc : Int) (v : Nat) (h : store s loc v = .ok s1) :
    s1._limit = s._limit := by
  unfold store at h
  split at h
  · cases h
  · split at h
    · injection h with h
      rw [← h]
      simp [_limit]
    · cases h

theorem grow_spec (s : LockStack) (k : Nat) (h : s._current ≤ s._limit) :
    entries (grow s k) = entries s ∧ k ≤ (grow s k)._limit ∧ (grow s k)._current = s._current := by
  have hlen : (List.take s._current s.mem).length = s._current := by
    simp only [List.length_take, _limit] at *
    omega
  refine ⟨?_, ?_, rfl⟩
  · simp only [entries, grow]
    rw [List.take_append_of_le_length (by omega), List.take_take, Nat.min_self]
  · simp only [grow, _limit, List.length_append, List.length_replicate]
    omega

theorem push_limit (s s1 : LockStack) (o : Nat) (h : push s o = .ok s1) :
    (s._limit ≤ s._current → s1._limit = (grow s (s._limit + 1))._limit) ∧
      (s._current < s._limit → s1._limit = s._limit) := by
  simp only [push, bind, Except.bind, pure, Except.pure, _base, Nat.sub_zero] at h
  constructor
  · intro hfull
    have hge : s._current ≥ s._limit := hfull
    simp only [hge, ↓reduceIte] at h
    split at h
    · cases h
    · rename_i s2 hstore
      injection h with h
      rw [← h]
      exact store_limit _ s2 _ _ hstore
  · intro hroom
    have hge : ¬ s._current ≥ s._limit := by omega
    simp only [hge, ↓reduceIte] at h
    split at h
    · cases h
    · rename_i s2 hstore
      injection h with h
      rw [← h]
      exact store_limit _ s2 _ _ hstore

/-- C12: on a stack that fits its buffer, `push` of an aligned reference returns, the entries
afterwards are the old entries, unchanged and in order, followed by the new zero-count entry,
and `_base <= _current <= _limit` holds afterwards.  When the stack is full (`_current`
equal to `_limit`, capacity `k`) the buffer is the one `grow(k + 1)` gives, which keeps the
entries and has a capacity of at least `k + 1`; when it is not full the capacity is
unchanged. -/
theorem push_grows_when_full (lp64 : Bool) (s : LockStack) (o : Nat) (hwf : wf lp64 s)
    (ho : aligned lp64 o) :
    ∃ s1, push s o = .ok s1 ∧ entries s1 = entries s ++ [encode_oop o] ∧
      decode_oop lp64 (encode_oop o) = o ∧ decode_recursion lp64 (encode_oop o) = 0 ∧
      s1._current = s._current + 1 ∧ _base ≤ s1._current ∧ s1._current ≤ s1._limit ∧
      (s._current = s._limit →
        s1._limit = (grow s (s._limit + 1))._limit ∧ s._limit + 1 ≤ s1._limit ∧
        entries (grow s (s._limit + 1)) = entries s) ∧
      (s._current < s._limit → s1._limit = s._limit) := by
  obtain ⟨s1, hpush, hent, hcur, hwf1⟩ := push_spec lp64 s o hwf ho.1
  obtain ⟨hfull, hroom⟩ := push_limit s s1 o hpush
  obtain ⟨hgent, hglim, _⟩ := grow_spec s (s._limit + 1) hwf.1
  refine ⟨s1, hpush, hent, decode_oop_of_aligned lp64 o ho, ho.2, hcur, Nat.zero_le _, hwf1.1,
    ?_, hroom⟩
  intro heq
  have h1 := hfull (by omega)
  exact ⟨h1, by rw [h1]; exact hglim, hgent⟩

theorem push_grows_when_full_witness :
    wf true ⟨[8, 16], 2⟩ ∧ aligned true 24 ∧
      push ⟨[8, 16], 2⟩ 24 = .ok ⟨[8, 16, 24, 0], 3⟩ ∧
      push ⟨[8, 16, 24, 0], 3⟩ 32 = .ok ⟨[8, 16, 24, 32], 4⟩ ∧
      ∃ s1, push ⟨[8, 16], 2⟩ 24 = .ok s1 ∧
        entries s1 = entries ⟨[8, 16], 2⟩ ++ [encode_oop 24] ∧
        decode_oop true (encode_oop 24) = 24 ∧ decode_recursion true (encode_oop 24) = 0 ∧
        s1._current = 2 + 1 ∧ _base ≤ s1._current ∧ s1._current ≤ s1._limit ∧
        ((⟨[8, 16], 2⟩ : LockStack)._current = _limit ⟨[8, 16], 2⟩ →
          s1._limit = (grow ⟨[8, 16], 2⟩ (_limit ⟨[8, 16], 2⟩ + 1))._limit ∧
          _limit ⟨[8, 16], 2⟩ + 1 ≤ s1._limit ∧
          entries (grow ⟨[8, 16], 2⟩ (_limit ⟨[8, 16], 2⟩ + 1)) = entries ⟨[8, 16], 2⟩) ∧
        ((⟨[8, 16], 2⟩ : LockStack)._current < _limit ⟨[8, 16], 2⟩ →
          s1._limit = _limit ⟨[8, 16], 2⟩) :=
  ⟨by decide, by decide, by decide, by decide,
    push_grows_when_full true ⟨[8, 16], 2⟩ 24 (by decide) (by decide)⟩

end LockStack

namespace LockStack

/-! ## The empty stack -/

/-- C17, on the code: the condition `new_loc < _current` of the assertion in `pop` holds for
every stack, the empty one (`_current` equal to `_base`) included, so the assertion does not
fail there; `pop` on the empty stack then reads the slot below `_base`. -/
theorem pop_assert_holds_always :
    (∀ s : LockStack, pop_assert_holds s = true) ∧ empty._current = _base ∧
      pop_assert_holds empty = true ∧ (empty._current : Int) - 1 < (_base : Int) ∧
      ∀ lp64, pop lp64 empty = .error .out_of_bounds := by
  refine ⟨?_, rfl, by decide, by decide, ?_⟩
  · intro s
    simp [pop_assert_holds]
  · intro lp64
    cases lp64 <;> decide

/-- C19, on the code: on a stack with no occupied slot, `try_enter_recursive` and
`try_exit_recursive` first read `*(_current - 1)`, the slot below `_base`, which is outside the
buffer: neither returns false. -/
theorem recursive_paths_read_below_base (lp64 : Bool) (mem : List Nat) (obj : Nat) :
    load ⟨mem, 0⟩ ((0 : Nat) - 1 : Int) = .error .out_of_bounds ∧
      try_enter_recursive lp64 ⟨mem, 0⟩ obj = .error .out_of_bounds ∧
      try_exit_recursive lp64 ⟨mem, 0⟩ obj = .error .out_of_bounds ∧
      try_enter_recursive lp64 empty obj = .error .out_of_bounds ∧
      try_exit_recursive lp64 empty obj = .error .out_of_bounds := by
  have hload : ∀ m : List Nat, load ⟨m, 0⟩ (((0 : Nat) : Int) - 1) = .error .out_of_bounds := by
    intro m
    simp [load]
  refine ⟨hload mem, ?_, ?_, ?_, ?_⟩
  · simp only [try_enter_recursive, hload, bind, Except.bind]
  · simp only [try_exit_recursive, hload, bind, Except.bind]
  · simp only [try_enter_recursive, empty, hload, bind, Except.bind]
  · simp only [try_exit_recursive, empty, hload, bind, Except.bind]

/-! ## remove in a product build -/

/-- The outer loop of `remove` over slots that do not decode to `o`: it returns and changes
nothing. -/
theorem remove_scan_absent (lp64 : Bool) (o : Nat) (rest : List Nat) (c : Nat) :
    ∀ (skip before : List Nat), c = before.length + skip.length →
      (∀ y ∈ skip, decode_oop lp64 y ≠ o) →
      remove_scan lp64 o (skip.length + 1) before.length ⟨before ++ (skip ++ rest), c⟩ =
        .ok ⟨before ++ (skip ++ rest), c⟩ := by
  intro skip
  induction skip with
  | nil =>
    intro before hc _
    have hlt : ¬ before.length < c := by simp [hc]
    rw [remove_scan_succ]
    simp [hlt]
  | cons y skip ih =>
    intro before hc hskip
    have hy : decode_oop lp64 y ≠ o := hskip y (List.mem_cons_self _ _)
    have hlt : before.length < c := by simp [hc]
    have hc1 : c = (before ++ [y]).length + skip.length := by
      simp only [hc, List.length_append, List.length_cons, List.length_nil]
      omega
    have hrec := ih (before ++ [y]) hc1 (fun z hz => hskip z (List.mem_cons_of_mem _ hz))
    have hlen : (before ++ [y]).length = before.length + 1 := by simp
    rw [hlen] at hrec
    simp only [List.append_assoc, List.singleton_append] at hrec
    have hfuel : (y :: skip).length + 1 = (skip.length + 1) + 1 := rfl
    rw [hfuel, remove_scan_succ]
    simp only [hlt, ↓reduceIte, List.cons_append, load_append, Except.bind, hy, hrec]

/-- C20: in a product build, on a stack that fits its buffer, `remove(o)` of a reference that
is not present returns and leaves the whole stack as it was; and when `e` is the bottom-most
occupied slot that decodes to `o`, whatever the slots above it hold, `remove(o)` deletes that
slot only: the entries `l1 ++ e :: l2` become `l1 ++ l2`. -/
theorem remove_product_build (lp64 : Bool) (s : LockStack) (o : Nat)
    (hfit : s._current ≤ s._limit) :
    ((∀ e ∈ entries s, decode_oop lp64 e ≠ o) → remove lp64 s o = .ok s) ∧
    (∀ l1 e l2, entries s = l1 ++ e :: l2 → decode_oop lp64 e = o →
      (∀ y ∈ l1, decode_oop lp64 y ≠ o) →
      ∃ s1, remove lp64 s o = .ok s1 ∧ entries s1 = l1 ++ l2 ∧
        s1._current + 1 = s._current) := by
  constructor
  · intro habs
    obtain ⟨rest, hs⟩ := eq_of_entries s hfit
    have hscan := remove_scan_absent lp64 o rest (entries s).length (entries s) [] (by simp) habs
    simp only [List.nil_append, List.length_nil] at hscan
    generalize entries s = es at hs hscan
    subst hs
    simpa [remove, _base] using hscan
  · intro l1 e l2 hs he hl1
    obtain ⟨s1, hrem, hent, hcur, _, _⟩ := remove_spec lp64 s o e l1 l2 hfit hs he hl1
    exact ⟨s1, hrem, hent, hcur⟩

theorem remove_product_build_witness :
    (⟨[8, 16, 11, 0], 3⟩ : LockStack)._current ≤ _limit ⟨[8, 16, 11, 0], 3⟩ ∧
      remove true ⟨[8, 16, 11, 0], 3⟩ 24 = .ok ⟨[8, 16, 11, 0], 3⟩ ∧
      remove true ⟨[8, 16, 11, 0], 3⟩ 8 = .ok ⟨[16, 11, 11, 0], 2⟩ ∧
      ((∀ e ∈ entries ⟨[8, 16, 11, 0], 3⟩, decode_oop true e ≠ 24) →
        remove true ⟨[8, 16, 11, 0], 3⟩ 24 = .ok ⟨[8, 16, 11, 0], 3⟩) ∧
      ∃ s1, remove true ⟨[8, 16, 11, 0], 3⟩ 8 = .ok s1 ∧ entries s1 = [] ++ [16, 11] ∧
        s1._current + 1 = 3 :=
  ⟨by decide, by decide, by decide,
    (remove_product_build true ⟨[8, 16, 11, 0], 3⟩ 24 (by decide)).1,
    (remove_product_build true ⟨[8, 16, 11, 0], 3⟩ 8 (by decide)).2 [] 8 [16, 11]
      (by decide) (by decide) (by decide)⟩

end LockStack

namespace LockStack

/-! ## Containment after pop, remove and push -/

theorem exists_top (s : LockStack) (hfit : s._current ≤ s._limit) (hpos : 0 < s._current) :
    ∃ below e, entries s = below ++ [e] := by
  have hlen := entries_length s hfit
  rcases List.eq_nil_or_concat (entries s) with h | ⟨below, e, h⟩
  · rw [h] at hlen
    simp at hlen
    omega
  · exact ⟨below, e, by rw [h, List.concat_eq_append]⟩

theorem nodup_split (lp64 : Bool) (l1 l2 : List Nat) (e : Nat)
    (h : ((l1 ++ e :: l2).map (decode_oop lp64)).Nodup) :
    ∀ y ∈ l1 ++ l2, decode_oop lp64 y ≠ decode_oop lp64 e := by
  rw [List.map_append, List.map_cons] at h
  obtain ⟨_, hright, hdisj⟩ := List.nodup_append.mp h
  intro y hy hyd
  rcases List.mem_append.mp hy with hm | hm
  · refine hdisj (List.mem_map_of_mem _ hm) ?_
    rw [hyd]
    exact List.mem_cons_self _ _
  · apply (List.nodup_cons.mp hright).1
    rw [← hyd]
    exact List.mem_map_of_mem _ hm

theorem any_without (lp64 : Bool) (l1 l2 : List Nat) (e x : Nat)
    (h : decode_oop lp64 e ≠ x) :
    (l1 ++ e :: l2).any (fun y => decide (decode_oop lp64 y = x)) =
      (l1 ++ l2).any (fun y => decide (decode_oop lp64 y = x)) := by
  simp [List.any_append, h]

/-- C18: on a stack that fits its buffer and satisfies the uniqueness invariant: after `pop()`
has returned `r`, `contains(r)` is false; after `remove(o)` of a present reference,
`contains(o)` is false; in both cases `contains` is unchanged for every other reference; and
after `push(o)` of an aligned reference, `contains(o)` is true. -/
theorem containment_postconditions (lp64 : Bool) (s : LockStack) (o : Nat) (hwf : wf lp64 s)
    (huniq : unique lp64 s) :
    (0 < s._current →
      ∃ r s1, pop lp64 s = .ok (r, s1) ∧ contains lp64 s1 r = .ok false ∧
        ∀ x, x ≠ r → contains lp64 s1 x = contains lp64 s x) ∧
    ((∃ e ∈ entries s, decode_oop lp64 e = o) →
      ∃ s1, remove lp64 s o = .ok s1 ∧ contains lp64 s1 o = .ok false ∧
        ∀ x, x ≠ o → contains lp64 s1 x = contains lp64 s x) ∧
    (aligned lp64 o → ∃ s1, push s o = .ok s1 ∧ contains lp64 s1 o = .ok true) := by
  refine ⟨?_, ?_, ?_⟩
  · intro hpos
    obtain ⟨below, e, hs⟩ := exists_top s hwf.1 hpos
    obtain ⟨s1, hpop, hent, hcur, hmem⟩ := pop_spec lp64 s below e hwf.1 hs
    have hlen := entries_length s hwf.1
    rw [hs] at hlen
    simp only [List.length_append, List.length_singleton] at hlen
    have hfit1 : s1._current ≤ s1._limit := by
      have := hwf.1
      simp only [_limit, hmem, hcur] at *
      omega
    have hno : ∀ y ∈ below ++ [], decode_oop lp64 y ≠ decode_oop lp64 e :=
      nodup_split lp64 below [] e (by unfold unique at huniq; rwa [hs] at huniq)
    rw [List.append_nil] at hno
    refine ⟨decode_oop lp64 e, s1, hpop, ?_, ?_⟩
    · rw [contains_false_iff lp64 s1 _ hfit1, hent]
      exact hno
    · intro x hx
      rw [contains_spec lp64 s1 x hfit1, contains_spec lp64 s x hwf.1, hent, hs,
        any_without lp64 below [] e x (fun h => hx h.symm), List.append_nil]
  · intro hpresent
    obtain ⟨l1, e, l2, hs, he, hl1⟩ :=
      exists_first (fun e => decode_oop lp64 e = o) (entries s) hpresent
    obtain ⟨s1, hrem, hent, hcur, hlim, _⟩ := remove_spec lp64 s o e l1 l2 hwf.1 hs he hl1
    have hfit1 : s1._current ≤ s1._limit := by
      have := hwf.1
      omega
    have hno : ∀ y ∈ l1 ++ l2, decode_oop lp64 y ≠ decode_oop lp64 e :=
      nodup_split lp64 l1 l2 e (by unfold unique at huniq; rwa [hs] at huniq)
    refine ⟨s1, hrem, ?_, ?_⟩
    · rw [contains_false_iff lp64 s1 _ hfit1, hent, ← he]
      exact hno
    · intro x hx
      rw [contains_spec lp64 s1 x hfit1, contains_spec lp64 s x hwf.1, hent, hs,
        any_without lp64 l1 l2 e x (fun h => hx (h.symm.trans he))]
  · intro ho
    obtain ⟨s1, hpush, hent, _, hwf1⟩ := push_spec lp64 s o hwf ho.1
    refine ⟨s1, hpush, ?_⟩
    rw [contains_true_iff lp64 s1 o hwf1.1, hent]
    exact ⟨o, by simp, decode_oop_of_aligned lp64 o ho⟩

theorem containment_postconditions_witness :
    wf true ⟨[8, 16, 27], 3⟩ ∧ unique true ⟨[8, 16, 27], 3⟩ ∧
      pop true ⟨[8, 16, 27], 3⟩ = .ok (24, ⟨[8, 16, 27], 2⟩) ∧
      contains true ⟨[8, 16, 27], 2⟩ 24 = .ok false ∧
      (∃ r s1, pop true ⟨[8, 16, 27], 3⟩ = .ok (r, s1) ∧ contains true s1 r = .ok false ∧
        ∀ x, x ≠ r → contains true s1 x = contains true ⟨[8, 16, 27], 3⟩ x) ∧
      (∃ s1, remove true ⟨[8, 16, 27], 3⟩ 16 = .ok s1 ∧ contains true s1 16 = .ok false ∧
        ∀ x, x ≠ 16 → contains true s1 x = contains true ⟨[8, 16, 27], 3⟩ x) ∧
      (∃ s1, push ⟨[8, 16, 27], 3⟩ 32 = .ok s1 ∧ contains true s1 32 = .ok true) :=
  ⟨by decide, by decide, by decide, by decide,
    (containment_postconditions true ⟨[8, 16, 27], 3⟩ 16 (by decide) (by decide)).1 (by decide),
    (containment_postconditions true ⟨[8, 16, 27], 3⟩ 16 (by decide) (by decide)).2.1
      (by decide),
    (containment_postconditions true ⟨[8, 16, 27], 3⟩ 32 (by decide) (by decide)).2.2
      (by decide)⟩

end LockStack

namespace LockStack

/-! ## The effect of each call on the occupied entries -/

theorem try_enter_recursive_effect (lp64 : Bool) (s : LockStack) (obj : Nat) (hwf : wf lp64 s)
    (hpos : 0 < s._current) :
    ∃ b s1 out below e e1, try_enter_recursive lp64 s obj = .ok (b, s1, out) ∧ wf lp64 s1 ∧
      entries s = below ++ [e] ∧ entries s1 = below ++ [e1] ∧
      decode_oop lp64 e1 = decode_oop lp64 e := by
  obtain ⟨below, e, hs⟩ := exists_top s hwf.1 hpos
  have he : e < 2 ^ word_bits lp64 := word_of_entries lp64 s hwf e (by rw [hs]; simp)
  obtain ⟨rest, rfl⟩ := eq_of_entries_snoc s below e hwf.1 hs
  by_cases hd : decode_oop lp64 e = obj
  · by_cases hrec : decode_recursion lp64 e < OOP_MASK lp64
    · obtain ⟨hmod, hlt, hoop, _⟩ := incr_spec lp64 e he hrec
      have henter := try_enter_recursive_incr lp64 below rest e obj hd hrec
      rw [hmod] at henter
      exact ⟨true, _, [], below, e, e + 1, henter,
        wf_append_cons lp64 below rest e (e + 1) _ _ hwf hlt (by omega), hs,
        entries_append_cons _ _ _, hoop⟩
    · exact ⟨false, _, _, below, e, e, try_enter_recursive_full lp64 below rest e obj hd hrec,
        hwf, hs, hs, rfl⟩
  · exact ⟨false, _, [], below, e, e, try_enter_recursive_other lp64 below rest e obj hd, hwf,
      hs, hs, rfl⟩

theorem try_exit_recursive_effect (lp64 : Bool) (s : LockStack) (obj : Nat) (hwf : wf lp64 s)
    (hpos : 0 < s._current) :
    ∃ b s1 below e e1, try_exit_recursive lp64 s obj = .ok (b, s1) ∧ wf lp64 s1 ∧
      entries s = below ++ [e] ∧ entries s1 = below ++ [e1] ∧
      decode_oop lp64 e1 = decode_oop lp64 e := by
  obtain ⟨below, e, hs⟩ := exists_top s hwf.1 hpos
  have he : e < 2 ^ word_bits lp64 := word_of_entries lp64 s hwf e (by rw [hs]; simp)
  obtain ⟨rest, rfl⟩ := eq_of_entries_snoc s below e hwf.1 hs
  by_cases h : decode_oop lp64 e = obj ∧ 0 < decode_recursion lp64 e
  · obtain ⟨hmod, _, hoop, _⟩ := decr_spec lp64 e he h.2
    have hexit := try_exit_recursive_decr lp64 below rest e obj h.1 h.2
    rw [hmod] at hexit
    exact ⟨true, _, below, e, e - 1, hexit,
      wf_append_cons lp64 below rest e (e - 1) _ _ hwf (by omega) (by omega), hs,
      entries_append_cons _ _ _, hoop⟩
  · exact ⟨false, _, below, e, e, try_exit_recursive_keep lp64 below rest e obj h, hwf, hs, hs,
      rfl⟩

theorem pop_effect (lp64 : Bool) (s : LockStack) (hwf : wf lp64 s) (hpos : 0 < s._current) :
    ∃ r s1 below e, pop lp64 s = .ok (r, s1) ∧ wf lp64 s1 ∧ entries s = below ++ [e] ∧
      entries s1 = below := by
  obtain ⟨below, e, hs⟩ := exists_top s hwf.1 hpos
  obtain ⟨s1, hpop, hent, hcur, hmem⟩ := pop_spec lp64 s below e hwf.1 hs
  have hlen := entries_length s hwf.1
  rw [hs] at hlen
  simp only [List.length_append, List.length_singleton] at hlen
  refine ⟨_, s1, below, e, hpop, ⟨?_, ?_⟩, hs, hent⟩
  · have := hwf.1
    simp only [_limit, hmem, hcur] at *
    omega
  · rw [hmem]
    exact hwf.2

theorem remove_effect (lp64 : Bool) (s : LockStack) (o : Nat) (hwf : wf lp64 s)
    (hpresent : ∃ e ∈ entries s, decode_oop lp64 e = o) :
    ∃ s1 l1 e l2, remove lp64 s o = .ok s1 ∧ wf lp64 s1 ∧ entries s = l1 ++ e :: l2 ∧
      entries s1 = l1 ++ l2 := by
  obtain ⟨l1, e, l2, hs, he, hl1⟩ :=
    exists_first (fun e => decode_oop lp64 e = o) (entries s) hpresent
  obtain ⟨s1, hrem, hent, hcur, hlim, hmem⟩ := remove_spec lp64 s o e l1 l2 hwf.1 hs he hl1
  refine ⟨s1, l1, e, l2, hrem, ⟨?_, fun w hw => hwf.2 w (hmem w hw)⟩, hs, hent⟩
  have := hwf.1
  omega

theorem oops_do_effect (lp64 : Bool) (s : LockStack) (cl : Nat → Nat) (hwf : wf lp64 s)
    (hcl : ∀ e ∈ entries s, aligned lp64 (cl (decode_oop lp64 e))) :
    ∃ s1, oops_do lp64 cl s = .ok s1 ∧ wf lp64 s1 ∧
      entries s1 = (entries s).map (relocated lp64 cl) := by
  obtain ⟨s1, hdo, _, hent, hcur, hlim, hmem⟩ := oops_do_spec lp64 cl s hwf.1
  refine ⟨s1, hdo, ⟨by rw [hcur, hlim]; exact hwf.1, ?_⟩, hent⟩
  intro w hw
  rcases hmem w hw with h | ⟨e, he, rfl⟩
  · exact hwf.2 w h
  · exact (relocated_spec lp64 cl e (hcl e he)).1

/-- What a call within its preconditions does to the occupied entries of a stack that fits its
buffer: it returns, and either a new entry is on top, or one entry is gone, or the top entry
has changed its count only, or every entry has been relocated. -/
theorem call_effect (lp64 : Bool) (c : Call) (s : LockStack) (hwf : wf lp64 s)
    (hpre : Call.pre lp64 c s) :
    ∃ s1, Call.apply lp64 c s = .ok s1 ∧ wf lp64 s1 ∧
      ((∃ o, c = Call.push o ∧ aligned lp64 o ∧ (∀ e ∈ entries s, decode_oop lp64 e ≠ o) ∧
          entries s1 = entries s ++ [o]) ∨
        (∃ l1 e l2, entries s = l1 ++ e :: l2 ∧ entries s1 = l1 ++ l2) ∨
        (∃ below e e1, entries s = below ++ [e] ∧ entries s1 = below ++ [e1] ∧
          decode_oop lp64 e1 = decode_oop lp64 e) ∨
        (∃ cl, c = Call.oops_do cl ∧ (∀ e ∈ entries s, aligned lp64 (cl (decode_oop lp64 e))) ∧
          entries s1 = (entries s).map (relocated lp64 cl))) := by
  cases c with
  | push o =>
    obtain ⟨ho, hno⟩ := hpre
    obtain ⟨s1, hpush, hent, _, hwf1⟩ := push_spec lp64 s o hwf ho.1
    exact ⟨s1, hpush, hwf1, Or.inl ⟨o, rfl, ho, hno, hent⟩⟩
  | pop =>
    obtain ⟨r, s1, below, e, hpop, hwf1, hs, hent⟩ := pop_effect lp64 s hwf hpre
    refine ⟨s1, ?_, hwf1, Or.inr (Or.inl ⟨below, e, [], hs, by simpa using hent⟩)⟩
    simp only [Call.apply, hpop, bind, Except.bind, pure, Except.pure]
  | remove o =>
    obtain ⟨s1, l1, e, l2, hrem, hwf1, hs, hent⟩ := remove_effect lp64 s o hwf hpre
    exact ⟨s1, hrem, hwf1, Or.inr (Or.inl ⟨l1, e, l2, hs, hent⟩)⟩
  | try_enter_recursive obj =>
    obtain ⟨b, s1, out, below, e, e1, hcall, hwf1, hs, hent, hd⟩ :=
      try_enter_recursive_effect lp64 s obj hwf hpre
    refine ⟨s1, ?_, hwf1, Or.inr (Or.inr (Or.inl ⟨below, e, e1, hs, hent, hd⟩))⟩
    simp only [Call.apply, hcall, bind, Except.bind, pure, Except.pure]
  | try_exit_recursive obj =>
    obtain ⟨b, s1, below, e, e1, hcall, hwf1, hs, hent, hd⟩ :=
      try_exit_recursive_effect lp64 s obj hwf hpre
    refine ⟨s1, ?_, hwf1, Or.inr (Or.inr (Or.inl ⟨below, e, e1, hs, hent, hd⟩))⟩
    simp only [Call.apply, hcall, bind, Except.bind, pure, Except.pure]
  | oops_do cl =>
    obtain ⟨s1, hdo, hwf1, hent⟩ := oops_do_effect lp64 s cl hwf hpre
    exact ⟨s1, hdo, hwf1, Or.inr (Or.inr (Or.inr ⟨cl, rfl, hpre, hent⟩))⟩

end LockStack

namespace LockStack

/-! ## Only the top entry carries a count -/

theorem top_only_of_effect (lp64 : Bool) (c : Call) (s s1 : LockStack)
    (htop : top_only lp64 s) (hplain : ∀ o, c = Call.push o → plain_top lp64 s)
    (heff : (∃ o, c = Call.push o ∧ aligned lp64 o ∧ (∀ e ∈ entries s, decode_oop lp64 e ≠ o) ∧
          entries s1 = entries s ++ [o]) ∨
        (∃ l1 e l2, entries s = l1 ++ e :: l2 ∧ entries s1 = l1 ++ l2) ∨
        (∃ below e e1, entries s = below ++ [e] ∧ entries s1 = below ++ [e1] ∧
          decode_oop lp64 e1 = decode_oop lp64 e) ∨
        (∃ cl, c = Call.oops_do cl ∧ (∀ e ∈ entries s, aligned lp64 (cl (decode_oop lp64 e))) ∧
          entries s1 = (entries s).map (relocated lp64 cl))) :
    top_only lp64 s1 := by
  unfold top_only at htop ⊢
  rcases heff with ⟨o, hc, _, _, hent⟩ | ⟨l1, e, l2, hs, hent⟩ | ⟨below, e, e1, hs, hent, _⟩ |
    ⟨cl, _, hcl, hent⟩
  · have hp := hplain o hc
    unfold plain_top at hp
    rw [hent, List.dropLast_concat]
    intro x hx
    rcases List.eq_nil_or_concat (entries s) with h | ⟨below, e, h⟩
    · rw [h] at hx
      cases hx
    · rw [List.concat_eq_append] at h
      rw [h] at hx htop hp
      rw [List.dropLast_concat] at htop
      rcases List.mem_append.mp hx with hm | hm
      · exact htop x hm
      · rw [List.mem_singleton.mp hm]
        exact hp e (by simp)
  · rw [hent]
    rw [hs] at htop
    intro x hx
    rcases List.eq_nil_or_concat l2 with h | ⟨l3, b, h⟩
    · subst h
      rw [List.dropLast_concat] at htop
      rw [List.append_nil] at hx
      exact htop x (List.dropLast_subset _ hx)
    · rw [List.concat_eq_append] at h
      subst h
      have h1 : l1 ++ e :: (l3 ++ [b]) = (l1 ++ e :: l3) ++ [b] := by simp
      have h2 : l1 ++ (l3 ++ [b]) = (l1 ++ l3) ++ [b] := by simp
      rw [h1, List.dropLast_concat] at htop
      rw [h2, List.dropLast_concat] at hx
      refine htop x ?_
      rcases List.mem_append.mp hx with hm | hm
      · exact List.mem_append_left _ hm
      · exact List.mem_append_right _ (List.mem_cons_of_mem _ hm)
  · rw [hent, List.dropLast_concat]
    rw [hs, List.dropLast_concat] at htop
    exact htop
  · rw [hent, ← List.map_dropLast]
    intro x hx
    obtain ⟨y, hy, rfl⟩ := List.mem_map.mp hx
    rw [(relocated_spec lp64 cl y (hcl y (List.dropLast_subset _ hy))).2.2]
    exact htop y hy

theorem wf_empty (lp64 : Bool) : wf lp64 empty := (holds_empty lp64).1

/-- C13, as stated, fails: from the empty stack, `push(8)`, `try_enter_recursive(8)` and
`push(16)` are each called within their preconditions, and lead to the stack `[9, 16]`, whose
slot below the top has recursion count `1`. -/
theorem top_only_broken_by_push :
    top_only true ⟨[9], 1⟩ ∧ Call.pre true (Call.push 16) ⟨[9], 1⟩ ∧
      push ⟨[9], 1⟩ 16 = .ok ⟨[9, 16], 2⟩ ∧ decode_recursion true 9 = 1 ∧
      ¬ top_only true ⟨[9, 16], 2⟩ ∧ Reach true (Call.pre true) ⟨[9, 16], 2⟩ := by
  have hpre : Call.pre true (Call.push 16) ⟨[9], 1⟩ := by
    unfold Call.pre
    decide
  have hpre0 : Call.pre true (Call.push 8) empty := by
    unfold Call.pre
    decide
  have hpre1 : Call.pre true (Call.try_enter_recursive 8) ⟨[8], 1⟩ := by
    unfold Call.pre
    decide
  refine ⟨by decide, hpre, by decide, by decide, by decide, ?_⟩
  have r1 : Reach true (Call.pre true) ⟨[8], 1⟩ :=
    Reach.step empty _ (Call.push 8) Reach.init hpre0 (by decide)
  have r2 : Reach true (Call.pre true) ⟨[9], 1⟩ :=
    Reach.step _ _ (Call.try_enter_recursive 8) r1 hpre1 (by decide)
  exact Reach.step _ _ (Call.push 16) r2 hpre (by decide)

/-- C13, amended: the predicate "only the top entry carries a nonzero recursion count" holds
for the empty stack; on a stack that fits its buffer it is preserved by `push`, `pop`,
`remove`, `try_enter_recursive`, `try_exit_recursive` and `oops_do`, each called within its
preconditions, where `push` is called only when the stack is empty or its top entry has
recursion count zero; so it holds in every state reachable from the empty stack by such
calls. -/
theorem top_only_invariant (lp64 : Bool) :
    top_only lp64 empty ∧
    (∀ s c, wf lp64 s → top_only lp64 s → Call.pre_plain lp64 c s →
      ∃ s1, Call.apply lp64 c s = .ok s1 ∧ wf lp64 s1 ∧ top_only lp64 s1) ∧
    (∀ s, Reach lp64 (Call.pre_plain lp64) s → top_only lp64 s) := by
  have hstep : ∀ s c, wf lp64 s → top_only lp64 s → Call.pre_plain lp64 c s →
      ∃ s1, Call.apply lp64 c s = .ok s1 ∧ wf lp64 s1 ∧ top_only lp64 s1 := by
    intro s c hwf htop hpre
    obtain ⟨s1, happly, hwf1, heff⟩ := call_effect lp64 c s hwf hpre.1
    exact ⟨s1, happly, hwf1, top_only_of_effect lp64 c s s1 htop hpre.2 heff⟩
  have hempty : top_only lp64 empty := by
    intro e he
    cases he
  refine ⟨hempty, hstep, ?_⟩
  intro s hreach
  have hboth : wf lp64 s ∧ top_only lp64 s := by
    induction hreach with
    | init => exact ⟨wf_empty lp64, hempty⟩
    | step s0 s1 c _ hpre happly ih =>
      obtain ⟨s2, happly2, hwf2, htop2⟩ := hstep s0 c ih.1 ih.2 hpre
      rw [happly] at happly2
      injection happly2 with h
      rw [h]
      exact ⟨hwf2, htop2⟩
  exact hboth.2

theorem top_only_invariant_witness :
    wf true ⟨[8, 17], 2⟩ ∧ top_only true ⟨[8, 17], 2⟩ ∧
      Call.pre_plain true (Call.remove 8) ⟨[8, 17], 2⟩ ∧
      Call.apply true (Call.remove 8) ⟨[8, 17], 2⟩ = .ok ⟨[17, 17], 1⟩ ∧
      ∃ s1, Call.apply true (Call.remove 8) ⟨[8, 17], 2⟩ = .ok s1 ∧ wf true s1 ∧
        top_only true s1 :=
  have hpre : Call.pre_plain true (Call.remove 8) ⟨[8, 17], 2⟩ :=
    ⟨by unfold Call.pre; decide, fun o h => Call.noConfusion h⟩
  ⟨by decide, by decide, hpre, by decide,
    (top_only_invariant true).2.1 ⟨[8, 17], 2⟩ (Call.remove 8) (by decide) (by decide) hpre⟩

end LockStack

namespace LockStack

/-! ## Uniqueness of the locked objects -/

theorem unique_of_effect (lp64 : Bool) (c : Call) (s s1 : LockStack) (huniq : unique lp64 s)
    (hinj : ∀ cl, c = Call.oops_do cl → ∀ x ∈ entries s, ∀ y ∈ entries s,
      cl (decode_oop lp64 x) = cl (decode_oop lp64 y) → decode_oop lp64 x = decode_oop lp64 y)
    (heff : (∃ o, c = Call.push o ∧ aligned lp64 o ∧ (∀ e ∈ entries s, decode_oop lp64 e ≠ o) ∧
          entries s1 = entries s ++ [o]) ∨
        (∃ l1 e l2, entries s = l1 ++ e :: l2 ∧ entries s1 = l1 ++ l2) ∨
        (∃ below e e1, entries s = below ++ [e] ∧ entries s1 = below ++ [e1] ∧
          decode_oop lp64 e1 = decode_oop lp64 e) ∨
        (∃ cl, c = Call.oops_do cl ∧ (∀ e ∈ entries s, aligned lp64 (cl (decode_oop lp64 e))) ∧
          entries s1 = (entries s).map (relocated lp64 cl))) :
    unique lp64 s1 := by
  unfold unique at huniq ⊢
  rcases heff with ⟨o, _, ho, hno, hent⟩ | ⟨l1, e, l2, hs, hent⟩ | ⟨below, e, e1, hs, hent, hd⟩ |
    ⟨cl, hc, hcl, hent⟩
  · rw [hent, List.map_append, List.map_singleton, decode_oop_of_aligned lp64 o ho]
    refine List.nodup_append.mpr ⟨huniq, List.nodup_singleton o, ?_⟩
    intro x hx hxo
    obtain ⟨e, he, rfl⟩ := List.mem_map.mp hx
    exact hno e he (List.mem_singleton.mp hxo)
  · rw [hent]
    rw [hs] at huniq
    refine List.Nodup.sublist (List.Sublist.map _ ?_) huniq
    exact List.Sublist.append_left (List.sublist_cons_self e l2) l1
  · rw [hent, List.map_append, List.map_singleton, hd]
    rw [hs, List.map_append, List.map_singleton] at huniq
    exact huniq
  · rw [hent, List.map_map]
    have hmap : List.map (decode_oop lp64 ∘ relocated lp64 cl) (entries s) =
        List.map cl (List.map (decode_oop lp64) (entries s)) := by
      rw [List.map_map]
      apply List.map_congr_left
      intro e he
      exact (relocated_spec lp64 cl e (hcl e he)).2.1
    rw [hmap]
    refine List.Nodup.map_on ?_ huniq
    intro x hx y hy hxy
    obtain ⟨ex, hex, rfl⟩ := List.mem_map.mp hx
    obtain ⟨ey, hey, rfl⟩ := List.mem_map.mp hy
    exact hinj cl hc ex hex ey hey hxy

/-- C14: on a stack that fits its buffer and in which no two occupied slots decode to the same
reference, each call within its preconditions returns and leaves a stack with the same
property: `push(ref)` of an aligned reference that is not contained, `pop` on a non-empty stack,
`remove` of a present reference, `try_enter_recursive` and `try_exit_recursive` on a non-empty
stack whatever they return, and `oops_do` with a callback that yields aligned references and is
injective on the references of the stack. -/
theorem unique_preserved (lp64 : Bool) (s : LockStack) (c : Call) (hwf : wf lp64 s)
    (huniq : unique lp64 s) (hpre : Call.pre lp64 c s)
    (hinj : ∀ cl, c = Call.oops_do cl → ∀ x ∈ entries s, ∀ y ∈ entries s,
      cl (decode_oop lp64 x) = cl (decode_oop lp64 y) → decode_oop lp64 x = decode_oop lp64 y) :
    ∃ s1, Call.apply lp64 c s = .ok s1 ∧ wf lp64 s1 ∧ unique lp64 s1 := by
  obtain ⟨s1, happly, hwf1, heff⟩ := call_effect lp64 c s hwf hpre
  exact ⟨s1, happly, hwf1, unique_of_effect lp64 c s s1 huniq hinj heff⟩

theorem unique_preserved_witness :
    wf true ⟨[8, 16, 29], 3⟩ ∧ unique true ⟨[8, 16, 29], 3⟩ ∧
      Call.pre true (Call.oops_do (fun p => p + 64)) ⟨[8, 16, 29], 3⟩ ∧
      Call.apply true (Call.oops_do (fun p => p + 64)) ⟨[8, 16, 29], 3⟩ =
        .ok ⟨[72, 80, 93], 3⟩ ∧
      unique true ⟨[72, 80, 93], 3⟩ ∧
      ∃ s1, Call.apply true (Call.oops_do (fun p => p + 64)) ⟨[8, 16, 29], 3⟩ = .ok s1 ∧
        wf true s1 ∧ unique true s1 :=
  have hpre : Call.pre true (Call.oops_do (fun p => p + 64)) ⟨[8, 16, 29], 3⟩ := by
    unfold Call.pre
    decide
  ⟨by decide, by decide, hpre, by decide, by decide,
    unique_preserved true ⟨[8, 16, 29], 3⟩ (Call.oops_do (fun p => p + 64)) (by decide)
      (by decide) hpre
      (fun cl h => by
        injection h with h
        subst h
        decide)⟩

end LockStack
